import Mathlib

/-
Verification development for the script-magic repository.

The mapping subsystem stores a JSON document at ~/.sm/mapping.json and a
remote identifier at ~/.sm/gist_id.txt.  `MappingManager`
(src/script_magic/mapping_manager.py) reads and writes this document with
Python's `json.load` / `json.dump(indent=2, ensure_ascii=False)`.

This file embeds, shallowly:
  - JSON values as Python's json module represents them (`JValue`);
    numbers are modelled as integers (floating point literals are outside
    the model), objects as insertion-ordered key/value lists, exactly the
    view a Python dict gives;
  - the serializer (`jdump`, modelling json.dump with indent=2,
    ensure_ascii=False) and the parser (`json_loads`, modelling
    json.load), together with a verified round trip;
  - the MappingManager operations and setup_mapping, state-passing style,
    with the remote GitHub operations (which live in
    github_integration.py / github_gist_finder.py, outside src/) taken as
    function parameters so every possible remote behaviour is quantified;
  - extract_metadata_tags from pydantic_ai_integration.py.
-/

namespace ScriptMagic

/-- JSON values as handled by Python's json module.  Objects keep the
insertion order of their keys, as Python dicts do.  Numbers are restricted
to integers: the repository only ever stores strings, objects and lists in
the mapping file, and floating point is outside this model. -/
inductive JValue where
  | null
  | bool (b : Bool)
  | num (n : Int)
  | str (s : String)
  | arr (elems : List JValue)
  | obj (pairs : List (String × JValue))

mutual

def beqValue : JValue → JValue → Bool
  | .null, .null => true
  | .bool a, .bool b => a = b
  | .num a, .num b => a = b
  | .str a, .str b => a = b
  | .arr xs, .arr ys => beqList xs ys
  | .obj ps, .obj qs => beqPairs ps qs
  | _, _ => false

def beqList : List JValue → List JValue → Bool
  | [], [] => true
  | x :: xs, y :: ys => beqValue x y && beqList xs ys
  | _, _ => false

def beqPairs : List (String × JValue) → List (String × JValue) → Bool
  | [], [] => true
  | (k, v) :: ps, (l, w) :: qs => k = l && beqValue v w && beqPairs ps qs
  | _, _ => false

end

mutual

theorem beqValue_iff : ∀ a b : JValue, beqValue a b = true ↔ a = b
  | .null, b => by cases b <;> simp [beqValue]
  | .bool x, b => by cases b <;> simp [beqValue]
  | .num x, b => by cases b <;> simp [beqValue]
  | .str x, b => by cases b <;> simp [beqValue]
  | .arr xs, b => by
      cases b <;> simp [beqValue]
      exact beqList_iff xs _
  | .obj ps, b => by
      cases b <;> simp [beqValue]
      exact beqPairs_iff ps _

theorem beqList_iff : ∀ xs ys : List JValue, beqList xs ys = true ↔ xs = ys
  | [], ys => by cases ys <;> simp [beqList]
  | x :: xs, ys => by
      cases ys with
      | nil => simp [beqList]
      | cons y ys =>
          rw [List.cons_eq_cons, ← beqValue_iff x y, ← beqList_iff xs ys]
          simp [beqList, Bool.and_eq_true]

theorem beqPairs_iff : ∀ ps qs : List (String × JValue), beqPairs ps qs = true ↔ ps = qs
  | [], qs => by cases qs <;> simp [beqPairs]
  | (k, v) :: ps, qs => by
      cases qs with
      | nil => simp [beqPairs]
      | cons q qs =>
          obtain ⟨l, w⟩ := q
          rw [List.cons_eq_cons, Prod.mk.injEq, ← beqValue_iff v w, ← beqPairs_iff ps qs]
          simp [beqPairs, Bool.and_eq_true, and_assoc]

end

instance : DecidableEq JValue := fun a b =>
  decidable_of_iff (beqValue a b = true) (beqValue_iff a b)

/-! ### Python dict operations on ordered key/value lists -/

/-- Python `d[k]` / `d.get(k)`: first (= unique) binding of a key. -/
def jLookup : List (String × JValue) → String → Option JValue
  | [], _ => none
  | (k, v) :: rest, key => if k = key then some v else jLookup rest key

/-- Python `d[k] = v`: update the value in place if the key is present
(keeping its position), and append the binding otherwise. -/
def jInsert : List (String × JValue) → String → JValue → List (String × JValue)
  | [], key, v => [(key, v)]
  | (k, w) :: rest, key, v =>
      if k = key then (k, v) :: rest else (k, w) :: jInsert rest key v

/-- Python `del d[k]`: drop the binding of a key. -/
def jErase : List (String × JValue) → String → List (String × JValue)
  | [], _ => []
  | (k, w) :: rest, key => if k = key then rest else (k, w) :: jErase rest key

/-- Python `base.update(upd)` / `{**base, **upd}`: fold the updates into the
base dict, later keys winning and first positions kept. -/
def pyDictUpdate (base upd : List (String × JValue)) : List (String × JValue) :=
  upd.foldl (fun acc kv => jInsert acc kv.1 kv.2) base

/-- Keys of a dict are pairwise distinct (always true of a Python dict,
stated on the ordered-list representation). -/
def nodupKeysB : List (String × JValue) → Bool
  | [] => true
  | (k, _) :: ps => ps.all (fun p => p.1 != k) && nodupKeysB ps

mutual

/-- Well-formed JSON value: every object, recursively, has pairwise
distinct keys.  Every value that comes out of a Python dict (and hence out
of json.load) satisfies this. -/
def JWFV : JValue → Bool
  | .null => true
  | .bool _ => true
  | .num _ => true
  | .str _ => true
  | .arr xs => JWFI xs
  | .obj ps => nodupKeysB ps && JWFM ps

def JWFI : List JValue → Bool
  | [] => true
  | x :: xs => JWFV x && JWFI xs

def JWFM : List (String × JValue) → Bool
  | [] => true
  | (_, v) :: ps => JWFV v && JWFM ps

end

/-! ### Serializer: json.dump(data, f, indent=2, ensure_ascii=False) -/

/-- Lowercase hex digit, as Python's json encoder emits in `\u00xx`. -/
def hexDigitChar (d : Nat) : Char :=
  if d < 10 then Char.ofNat (48 + d) else Char.ofNat (87 + d)

/-- How json.dump(ensure_ascii=False) escapes one character of a string. -/
def escapeChar (c : Char) : List Char :=
  if c = Char.ofNat 34 then [Char.ofNat 92, Char.ofNat 34]
  else if c = Char.ofNat 92 then [Char.ofNat 92, Char.ofNat 92]
  else if c = Char.ofNat 8 then [Char.ofNat 92, 'b']
  else if c = Char.ofNat 12 then [Char.ofNat 92, 'f']
  else if c = Char.ofNat 10 then [Char.ofNat 92, 'n']
  else if c = Char.ofNat 13 then [Char.ofNat 92, 'r']
  else if c = Char.ofNat 9 then [Char.ofNat 92, 't']
  else if c.toNat < 32 then
    [Char.ofNat 92, 'u', '0', '0', hexDigitChar (c.toNat / 16), hexDigitChar (c.toNat % 16)]
  else [c]

def escapeString (s : String) : List Char :=
  (s.data.map escapeChar).flatten

/-- A JSON string literal: quote, escaped body, quote. -/
def serString (s : String) : List Char :=
  Char.ofNat 34 :: escapeString s ++ [Char.ofNat 34]

def digitChar (d : Nat) : Char := Char.ofNat (48 + d)

/-- Decimal digits of a natural number, most significant first, written
with explicit fuel so that it reduces definitionally. -/
def natCharsF : Nat → Nat → List Char → List Char
  | 0, _, acc => acc
  | fuel + 1, n, acc =>
      if n < 10 then digitChar n :: acc
      else natCharsF fuel (n / 10) (digitChar (n % 10) :: acc)

def natChars (n : Nat) : List Char := natCharsF (n + 1) n []

/-- Python repr of an int, as json.dump writes numbers. -/
def intChars (i : Int) : List Char :=
  if i < 0 then '-' :: natChars i.natAbs else natChars i.toNat

/-- Indentation printed by json.dump(indent=2) at nesting depth lvl. -/
def indentChars (lvl : Nat) : List Char := List.replicate (2 * lvl) ' '

mutual

/-- The exact character stream json.dump(value, f, indent=2,
ensure_ascii=False) produces for a value sitting at nesting depth lvl. -/
def serValue : JValue → Nat → List Char
  | .null, _ => ['n', 'u', 'l', 'l']
  | .bool true, _ => ['t', 'r', 'u', 'e']
  | .bool false, _ => ['f', 'a', 'l', 's', 'e']
  | .num i, _ => intChars i
  | .str s, _ => serString s
  | .arr [], _ => ['[', ']']
  | .arr (x :: xs), lvl =>
      '[' :: '\n' :: (indentChars (lvl + 1) ++ serItems (x :: xs) (lvl + 1)
        ++ '\n' :: (indentChars lvl ++ [']']))
  | .obj [], _ => ['{', '}']
  | .obj (p :: ps), lvl =>
      '{' :: '\n' :: (indentChars (lvl + 1) ++ serMembers (p :: ps) (lvl + 1)
        ++ '\n' :: (indentChars lvl ++ ['}']))

def serItems : List JValue → Nat → List Char
  | [], _ => []
  | [x], lvl => serValue x lvl
  | x :: y :: t, lvl =>
      serValue x lvl ++ ',' :: '\n' :: (indentChars lvl ++ serItems (y :: t) lvl)

def serMembers : List (String × JValue) → Nat → List Char
  | [], _ => []
  | [(k, v)], lvl => serString k ++ ':' :: ' ' :: serValue v lvl
  | (k, v) :: q :: t, lvl =>
      serString k ++ ':' :: ' ' :: serValue v lvl
        ++ ',' :: '\n' :: (indentChars lvl ++ serMembers (q :: t) lvl)

end

/-- json.dump of a whole document, as _write_mapping stores it. -/
def jdump (j : JValue) : String := String.mk (serValue j 0)

/-! ### Parser: json.load -/

/-- The whitespace characters the json parser skips. -/
def isJsonWs (c : Char) : Bool :=
  c = ' ' || c = '\t' || c = '\n' || c = '\r'

def skipWs : List Char → List Char
  | [] => []
  | c :: cs => if isJsonWs c then skipWs cs else c :: cs

def parseHexDigit (c : Char) : Option Nat :=
  if '0' ≤ c ∧ c ≤ '9' then some (c.toNat - 48)
  else if 'a' ≤ c ∧ c ≤ 'f' then some (c.toNat - 87)
  else if 'A' ≤ c ∧ c ≤ 'F' then some (c.toNat - 55)
  else none

/-- Body of a JSON string literal after the opening quote: handles the
escape sequences Python's json accepts and rejects raw control characters
(strict mode).  Surrogate pairing of consecutive `\uXXXX` escapes is
outside the model (the serializer never emits escapes above `\u001f`). -/
def parseStringBody : List Char → List Char → Option (String × List Char)
  | [], _ => none
  | c :: cs, acc =>
      if c = Char.ofNat 34 then some (String.mk acc.reverse, cs)
      else if c = Char.ofNat 92 then
        match cs with
        | [] => none
        | e :: cs1 =>
            if e = Char.ofNat 34 then parseStringBody cs1 (Char.ofNat 34 :: acc)
            else if e = Char.ofNat 92 then parseStringBody cs1 (Char.ofNat 92 :: acc)
            else if e = '/' then parseStringBody cs1 ('/' :: acc)
            else if e = 'b' then parseStringBody cs1 (Char.ofNat 8 :: acc)
            else if e = 'f' then parseStringBody cs1 (Char.ofNat 12 :: acc)
            else if e = 'n' then parseStringBody cs1 ('\n' :: acc)
            else if e = 'r' then parseStringBody cs1 (Char.ofNat 13 :: acc)
            else if e = 't' then parseStringBody cs1 ('\t' :: acc)
            else if e = 'u' then
              match cs1 with
              | h1 :: h2 :: h3 :: h4 :: cs2 =>
                  match parseHexDigit h1, parseHexDigit h2, parseHexDigit h3, parseHexDigit h4 with
                  | some a, some b, some c2, some d =>
                      parseStringBody cs2 (Char.ofNat (((a * 16 + b) * 16 + c2) * 16 + d) :: acc)
                  | _, _, _, _ => none
              | _ => none
            else none
      else if c.toNat < 32 then none
      else parseStringBody cs (c :: acc)

/-- Decimal digit character, the `\d` class of Python json's NUMBER_RE. -/
def isDigitChar (c : Char) : Bool := 48 ≤ c.toNat && c.toNat ≤ 57

/-- Greedy run of decimal digits with an accumulator. -/
def parseDigits : List Char → Nat → Nat × List Char
  | [], acc => (acc, [])
  | c :: cs, acc =>
      if isDigitChar c then parseDigits cs (acc * 10 + (c.toNat - 48))
      else (acc, c :: cs)

/-- The integer part of Python json's NUMBER_RE: `0` alone, or a nonzero
digit followed by a greedy run of digits.  The fraction/exponent
continuations produce floats, which are outside the model. -/
def parseUNumber : List Char → Option (Nat × List Char)
  | [] => none
  | c :: cs =>
      if c = '0' then some (0, cs)
      else if isDigitChar c then some (parseDigits cs (c.toNat - 48))
      else none

def parseNumber : List Char → Option (Int × List Char)
  | [] => none
  | c :: cs1 =>
      if c = '-' then (parseUNumber cs1).map (fun p => (-(p.1 : Int), p.2))
      else (parseUNumber (c :: cs1)).map (fun p => ((p.1 : Int), p.2))

mutual

/-- json.load value parser (fuel-indexed recursive descent; the caller
passes fuel larger than the nesting the input could need). -/
def parseValue : Nat → List Char → Option (JValue × List Char)
  | 0, _ => none
  | fuel + 1, cs =>
      match cs with
      | [] => none
      | c :: cs1 =>
          if c = '{' then
            match skipWs cs1 with
            | '}' :: rest => some (.obj [], rest)
            | cs2 => parseMembers fuel cs2 []
          else if c = '[' then
            match skipWs cs1 with
            | ']' :: rest => some (.arr [], rest)
            | cs2 => parseItems fuel cs2 []
          else if c = Char.ofNat 34 then
            (parseStringBody cs1 []).map (fun p => (.str p.1, p.2))
          else if c = 't' then
            match cs1 with
            | 'r' :: 'u' :: 'e' :: rest => some (.bool true, rest)
            | _ => none
          else if c = 'f' then
            match cs1 with
            | 'a' :: 'l' :: 's' :: 'e' :: rest => some (.bool false, rest)
            | _ => none
          else if c = 'n' then
            match cs1 with
            | 'u' :: 'l' :: 'l' :: rest => some (.null, rest)
            | _ => none
          else
            (parseNumber (c :: cs1)).map (fun p => (.num p.1, p.2))

def parseItems : Nat → List Char → List JValue → Option (JValue × List Char)
  | 0, _, _ => none
  | fuel + 1, cs, acc =>
      match parseValue fuel cs with
      | none => none
      | some (v, rest) =>
          match skipWs rest with
          | ',' :: rest1 => parseItems fuel (skipWs rest1) (v :: acc)
          | ']' :: rest1 => some (.arr (v :: acc).reverse, rest1)
          | _ => none

def parseMembers : Nat → List Char → List (String × JValue) → Option (JValue × List Char)
  | 0, _, _ => none
  | fuel + 1, cs, acc =>
      match cs with
      | c :: cs1 =>
          if c = Char.ofNat 34 then
            match parseStringBody cs1 [] with
            | none => none
            | some (k, rest) =>
                match skipWs rest with
                | ':' :: rest1 =>
                    match parseValue fuel (skipWs rest1) with
                    | none => none
                    | some (v, rest2) =>
                        match skipWs rest2 with
                        | ',' :: rest3 => parseMembers fuel (skipWs rest3) (jInsert acc k v)
                        | '}' :: rest3 => some (.obj (jInsert acc k v), rest3)
                        | _ => none
                | _ => none
          else none
      | [] => none

end

/-- json.load / json.loads of a whole document: parse one value surrounded
by whitespace and reject trailing data, returning none exactly where
Python raises json.JSONDecodeError. -/
def json_loads (s : String) : Option JValue :=
  match parseValue (2 * s.length + 2) (skipWs s.data) with
  | some (v, rest) => if skipWs rest = [] then some v else none
  | none => none

/-! ### Lemmas: decimal digits round-trip -/

/-- The guard under which a greedy digit run stops exactly at the end of
the serialized number: the continuation does not begin with a digit. -/
def noDigitHead : List Char → Prop
  | [] => True
  | c :: _ => isDigitChar c = false

def digStep (a : Nat) (c : Char) : Nat := a * 10 + (c.toNat - 48)

theorem digitChar_toNat : ∀ d : Nat, d < 10 → (digitChar d).toNat = 48 + d := by decide

theorem isDigitChar_digitChar : ∀ d : Nat, d < 10 → isDigitChar (digitChar d) = true := by decide

theorem digitChar_ne_zero : ∀ d : Nat, d < 10 → 0 < d → digitChar d ≠ '0' := by decide

theorem isDigitChar_ne_dash {c : Char} (h : isDigitChar c = true) : c ≠ '-' := by
  intro he; subst he; simp [isDigitChar] at h

theorem natCharsF_eq (n : Nat) : ∀ fuel acc, n < fuel → natCharsF fuel n acc = natChars n ++ acc := by
  induction n using Nat.strong_induction_on with
  | _ n ih =>
    intro fuel acc hf
    cases fuel with
    | zero => omega
    | succ f =>
      by_cases h : n < 10
      · simp [natCharsF, h, natChars]
      · have h0 : 0 < n := by omega
        have h10 : n / 10 < n := Nat.div_lt_self h0 (by omega)
        have hnc : natChars n = natChars (n / 10) ++ [digitChar (n % 10)] := by
          show natCharsF (n + 1) n [] = _
          rw [natCharsF]
          simp only [if_neg h]
          rw [ih (n / 10) h10 n _ (by omega)]
        rw [natCharsF]
        simp only [if_neg h]
        rw [ih (n / 10) h10 f _ (by omega), hnc, List.append_assoc]
        rfl

theorem natChars_lt10 (n : Nat) (h : n < 10) : natChars n = [digitChar n] := by
  simp [natChars, natCharsF, h]

theorem natChars_decomp (n : Nat) (h : 10 ≤ n) : natChars n = natChars (n / 10) ++ [digitChar (n % 10)] := by
  show natCharsF (n + 1) n [] = _
  rw [natCharsF]
  simp only [if_neg (by omega : ¬ n < 10)]
  exact natCharsF_eq (n / 10) n _ (by omega)

theorem natChars_digits (n : Nat) : ∀ c ∈ natChars n, isDigitChar c = true := by
  induction n using Nat.strong_induction_on with
  | _ n ih =>
    by_cases h : n < 10
    · rw [natChars_lt10 n h]
      intro c hc
      simp at hc
      subst hc
      exact isDigitChar_digitChar n h
    · rw [natChars_decomp n (by omega)]
      intro c hc
      rcases List.mem_append.mp hc with hl | hr
      · exact ih (n / 10) (Nat.div_lt_self (by omega) (by omega)) c hl
      · simp at hr
        subst hr
        exact isDigitChar_digitChar _ (Nat.mod_lt _ (by omega))

theorem natChars_ne_nil (n : Nat) : natChars n ≠ [] := by
  by_cases h : n < 10
  · rw [natChars_lt10 n h]; simp
  · rw [natChars_decomp n (by omega)]; simp

theorem natChars_head (n : Nat) (h1 : 1 ≤ n) :
    ∀ {c : Char} {cs : List Char}, natChars n = c :: cs → c ≠ '0' := by
  induction n using Nat.strong_induction_on with
  | _ n ih =>
    intro c cs hc
    by_cases h : n < 10
    · rw [natChars_lt10 n h] at hc
      cases hc
      exact digitChar_ne_zero n h h1
    · rw [natChars_decomp n (by omega)] at hc
      obtain ⟨d, ds, hds⟩ : ∃ d ds, natChars (n / 10) = d :: ds := by
        cases hnc : natChars (n / 10) with
        | nil => exact absurd hnc (natChars_ne_nil _)
        | cons d ds => exact ⟨d, ds, rfl⟩
      rw [hds] at hc
      simp only [List.cons_append, List.cons.injEq] at hc
      obtain ⟨rfl, -⟩ := hc
      exact ih (n / 10) (Nat.div_lt_self (by omega) (by omega)) (by omega) hds

theorem natChars_foldl (n : Nat) : ∀ a, (natChars n).foldl digStep a = a * 10 ^ (natChars n).length + n := by
  induction n using Nat.strong_induction_on with
  | _ n ih =>
    intro a
    by_cases h : n < 10
    · rw [natChars_lt10 n h]
      simp [digStep, digitChar_toNat n h]
    · rw [natChars_decomp n (by omega)]
      rw [List.foldl_append, ih (n / 10) (Nat.div_lt_self (by omega) (by omega)) a]
      have hdm := Nat.div_add_mod n 10
      have hmod : (digitChar (n % 10)).toNat - 48 = n % 10 := by
        rw [digitChar_toNat _ (Nat.mod_lt _ (by omega))]; omega
      simp only [List.foldl_cons, List.foldl_nil, digStep, hmod,
        List.length_append, List.length_cons, List.length_nil]
      rw [pow_succ]
      nlinarith [hdm]

theorem parseDigits_append : ∀ ds rest acc, (∀ c ∈ ds, isDigitChar c = true) → noDigitHead rest →
    parseDigits (ds ++ rest) acc = (ds.foldl digStep acc, rest)
  | [], rest, acc, _, hr => by
      cases rest with
      | nil => simp [parseDigits]
      | cons c cs => simp [parseDigits, noDigitHead] at hr ⊢; simp [hr]
  | d :: ds, rest, acc, hd, hr => by
      have hdd : isDigitChar d = true := hd d (by simp)
      simp only [List.cons_append, parseDigits, hdd, if_pos, List.append_eq]
      rw [parseDigits_append ds rest _ (fun c hc => hd c (by simp [hc])) hr]
      rfl

theorem parseUNumber_natChars (n : Nat) (rest : List Char) (hr : noDigitHead rest) :
    parseUNumber (natChars n ++ rest) = some (n, rest) := by
  by_cases h0 : n = 0
  · subst h0
    rw [natChars_lt10 0 (by omega)]
    simp [parseUNumber, digitChar]
  · obtain ⟨c, cs, hcs⟩ : ∃ c cs, natChars n = c :: cs := by
      cases hnc : natChars n with
      | nil => exact absurd hnc (natChars_ne_nil _)
      | cons c cs => exact ⟨c, cs, rfl⟩
    have hcne : c ≠ '0' := natChars_head n (by omega) hcs
    have hcd : isDigitChar c = true := natChars_digits n c (by rw [hcs]; simp)
    rw [hcs]
    simp only [List.cons_append, parseUNumber, if_neg hcne, hcd, if_pos]
    rw [parseDigits_append cs rest _ (fun x hx => natChars_digits n x (by rw [hcs]; simp [hx])) hr]
    have := natChars_foldl n 0
    rw [hcs] at this
    simp only [List.foldl_cons, digStep, Nat.zero_mul, Nat.zero_add, Nat.zero_pow] at this
    rw [this]

theorem parseNumber_intChars (i : Int) (rest : List Char) (hr : noDigitHead rest) :
    parseNumber (intChars i ++ rest) = some (i, rest) := by
  by_cases h : i < 0
  · simp only [intChars, if_pos h, List.cons_append, parseNumber, if_pos rfl]
    rw [parseUNumber_natChars _ rest hr]
    simp only [Option.map_some']
    rw [show -((i.natAbs : Int)) = i by omega]
    simp
  · simp only [intChars, if_neg h]
    obtain ⟨c, cs, hcs⟩ : ∃ c cs, natChars i.toNat = c :: cs := by
      cases hnc : natChars i.toNat with
      | nil => exact absurd hnc (natChars_ne_nil _)
      | cons c cs => exact ⟨c, cs, rfl⟩
    have hcd : isDigitChar c = true := natChars_digits _ c (by rw [hcs]; simp)
    rw [hcs]
    simp only [List.cons_append, parseNumber, if_neg (isDigitChar_ne_dash hcd)]
    rw [← List.cons_append, ← hcs, parseUNumber_natChars _ rest hr]
    simp only [Option.map_some']
    rw [show ((i.toNat : Int)) = i by omega]

/-! ### Lemmas: string literal round-trip -/

theorem parseHexDigit_hexDigitChar : ∀ d : Nat, d < 16 → parseHexDigit (hexDigitChar d) = some d := by
  decide

theorem parseHexDigit_zero : parseHexDigit '0' = some 0 := by decide

theorem parseStringBody_u (e1 e2 e3 e4 : Char) (a b c2 d : Nat) (rest acc : List Char)
    (h1 : parseHexDigit e1 = some a) (h2 : parseHexDigit e2 = some b)
    (h3 : parseHexDigit e3 = some c2) (h4 : parseHexDigit e4 = some d) :
    parseStringBody (Char.ofNat 92 :: 'u' :: e1 :: e2 :: e3 :: e4 :: rest) acc
      = parseStringBody rest (Char.ofNat (((a * 16 + b) * 16 + c2) * 16 + d) :: acc) := by
  rw [parseStringBody]
  simp [h1, h2, h3, h4]

theorem parseStringBody_escapeChar (c : Char) (rest acc : List Char) :
    parseStringBody (escapeChar c ++ rest) acc = parseStringBody rest (c :: acc) := by
  unfold escapeChar
  split_ifs with e1 e2 e3 e4 e5 e6 e7 e8
  · subst e1
    simp only [List.cons_append, List.nil_append]
    rw [parseStringBody.eq_def]
    simp
  · subst e2
    simp only [List.cons_append, List.nil_append]
    rw [parseStringBody.eq_def]
    simp
  · subst e3
    simp only [List.cons_append, List.nil_append]
    rw [parseStringBody.eq_def]
    simp
  · subst e4
    simp only [List.cons_append, List.nil_append]
    rw [parseStringBody.eq_def]
    simp
  · subst e5
    simp only [List.cons_append, List.nil_append]
    rw [parseStringBody.eq_def]
    simp
  · subst e6
    simp only [List.cons_append, List.nil_append]
    rw [parseStringBody.eq_def]
    simp
  · subst e7
    simp only [List.cons_append, List.nil_append]
    rw [parseStringBody.eq_def]
    simp
  · simp only [List.cons_append, List.nil_append]
    rw [parseStringBody_u _ _ _ _ 0 0 (c.toNat / 16) (c.toNat % 16) rest acc
      parseHexDigit_zero parseHexDigit_zero
      (parseHexDigit_hexDigitChar _ (by omega)) (parseHexDigit_hexDigitChar _ (by omega))]
    congr 2
    rw [show ((0 * 16 + 0) * 16 + c.toNat / 16) * 16 + c.toNat % 16 = c.toNat by omega]
    exact Char.ofNat_toNat c
  · simp only [List.cons_append, List.nil_append]
    rw [parseStringBody.eq_def]
    simp [e1, e2, e8]

theorem parseStringBody_escaped : ∀ (ds rest acc : List Char),
    parseStringBody ((ds.map escapeChar).flatten ++ (Char.ofNat 34 :: rest)) acc
      = some (String.mk (acc.reverse ++ ds), rest)
  | [], rest, acc => by
      simp only [List.map_nil, List.flatten_nil, List.nil_append]
      rw [parseStringBody.eq_def]
      simp
  | d :: ds, rest, acc => by
      simp only [List.map_cons, List.flatten_cons, List.append_assoc]
      rw [parseStringBody_escapeChar d _ acc]
      rw [parseStringBody_escaped ds rest (d :: acc)]
      simp

theorem mk_data (s : String) : String.mk s.data = s := rfl

theorem parse_serString (s : String) (rest : List Char) :
    parseStringBody (escapeString s ++ (Char.ofNat 34 :: rest)) [] = some (s, rest) := by
  rw [escapeString, parseStringBody_escaped s.data rest []]
  simp [mk_data]

theorem serString_append (s : String) (rest : List Char) :
    serString s ++ rest = Char.ofNat 34 :: (escapeString s ++ (Char.ofNat 34 :: rest)) := by
  simp [serString, List.append_assoc]

/-! ### Lemmas: whitespace -/

theorem skipWs_cons_ws {c : Char} (h : isJsonWs c = true) (cs : List Char) :
    skipWs (c :: cs) = skipWs cs := by
  simp [skipWs, h]

theorem skipWs_cons_not {c : Char} (h : isJsonWs c = false) (cs : List Char) :
    skipWs (c :: cs) = c :: cs := by
  simp [skipWs, h]

theorem skipWs_space_rep : ∀ (n : Nat) (rest : List Char),
    skipWs (List.replicate n ' ' ++ rest) = skipWs rest
  | 0, rest => by simp
  | n + 1, rest => by
      simp only [List.replicate_succ, List.cons_append]
      rw [skipWs_cons_ws (by decide), skipWs_space_rep n rest]

theorem skipWs_indent (lvl : Nat) (rest : List Char) :
    skipWs (indentChars lvl ++ rest) = skipWs rest :=
  skipWs_space_rep _ rest

theorem skipWs_nl (rest : List Char) : skipWs ('\n' :: rest) = skipWs rest :=
  skipWs_cons_ws (by decide) rest

/-! ### Lemmas: dict operations -/

theorem jLookup_jInsert_self : ∀ (ps : List (String × JValue)) (k : String) (v : JValue),
    jLookup (jInsert ps k v) k = some v
  | [], k, v => by simp [jInsert, jLookup]
  | (k1, w) :: ps, k, v => by
      by_cases h : k1 = k
      · subst h; simp [jInsert, jLookup]
      · simpa [jInsert, jLookup, h] using jLookup_jInsert_self ps k v

theorem jLookup_jInsert_ne : ∀ (ps : List (String × JValue)) (k : String) (v : JValue) (k2 : String),
    k ≠ k2 → jLookup (jInsert ps k v) k2 = jLookup ps k2
  | [], k, v, k2, h => by simp [jInsert, jLookup, h]
  | (k1, w) :: ps, k, v, k2, h => by
      by_cases h1 : k1 = k
      · subst h1
        simp [jInsert, jLookup, h]
      · by_cases h2 : k1 = k2
        · subst h2
          simp [jInsert, jLookup, h1]
        · simpa [jInsert, jLookup, h1, h2] using jLookup_jInsert_ne ps k v k2 h

theorem mem_jInsert (ps : List (String × JValue)) (k : String) (v : JValue)
    (q : String × JValue) (hq : q ∈ jInsert ps k v) : q = (k, v) ∨ q ∈ ps := by
  induction ps with
  | nil =>
      simp [jInsert] at hq
      simp [hq]
  | cons p ps ih =>
      obtain ⟨k1, w⟩ := p
      by_cases h : k1 = k
      · subst h
        simp [jInsert] at hq
        rcases hq with rfl | hq
        · exact Or.inl rfl
        · exact Or.inr (by simp [hq])
      · simp only [jInsert, if_neg h, List.mem_cons] at hq
        rcases hq with rfl | hq
        · exact Or.inr (by simp)
        · rcases ih hq with h2 | h2
          · exact Or.inl h2
          · exact Or.inr (by simp [h2])

theorem nodupKeysB_cons {k : String} {w : JValue} {ps : List (String × JValue)} :
    nodupKeysB ((k, w) :: ps) = (ps.all (fun p => p.1 != k) && nodupKeysB ps) := rfl

theorem nodupKeysB_jInsert : ∀ (ps : List (String × JValue)) (k : String) (v : JValue),
    nodupKeysB ps = true → nodupKeysB (jInsert ps k v) = true
  | [], k, v, _ => by simp [jInsert, nodupKeysB]
  | (k1, w) :: ps, k, v, h => by
      rw [nodupKeysB_cons, Bool.and_eq_true] at h
      by_cases h1 : k1 = k
      · subst h1
        simp only [jInsert, if_true, eq_self_iff_true, ite_true]
        rw [nodupKeysB_cons, Bool.and_eq_true]
        exact ⟨h.1, h.2⟩
      · simp only [jInsert, if_neg h1]
        rw [nodupKeysB_cons, Bool.and_eq_true]
        refine ⟨?_, nodupKeysB_jInsert ps k v h.2⟩
        rw [List.all_eq_true]
        intro q hq
        rcases mem_jInsert ps k v q hq with rfl | hq2
        · simpa using fun he => h1 he.symm
        · exact (List.all_eq_true.mp h.1) q hq2

theorem mem_jErase (ps : List (String × JValue)) (k : String)
    (q : String × JValue) (hq : q ∈ jErase ps k) : q ∈ ps := by
  induction ps with
  | nil => simp [jErase] at hq
  | cons p ps ih =>
      obtain ⟨k1, w⟩ := p
      by_cases h : k1 = k
      · subst h
        simp only [jErase, if_pos rfl] at hq
        exact List.mem_cons_of_mem _ hq
      · simp only [jErase, if_neg h, List.mem_cons] at hq
        rcases hq with rfl | hq
        · exact List.mem_cons_self _ _
        · exact List.mem_cons_of_mem _ (ih hq)

theorem nodupKeysB_jErase : ∀ (ps : List (String × JValue)) (k : String),
    nodupKeysB ps = true → nodupKeysB (jErase ps k) = true
  | [], k, _ => by simp [jErase, nodupKeysB]
  | (k1, w) :: ps, k, h => by
      rw [nodupKeysB_cons, Bool.and_eq_true] at h
      by_cases h1 : k1 = k
      · subst h1
        simp only [jErase, if_pos rfl]
        exact h.2
      · simp only [jErase, if_neg h1]
        rw [nodupKeysB_cons, Bool.and_eq_true]
        refine ⟨?_, nodupKeysB_jErase ps k h.2⟩
        rw [List.all_eq_true]
        intro q hq
        exact (List.all_eq_true.mp h.1) q (mem_jErase ps k q hq)

theorem jLookup_none_of_all : ∀ (ps : List (String × JValue)) (k : String),
    (∀ p ∈ ps, p.1 ≠ k) → jLookup ps k = none
  | [], k, _ => rfl
  | (k1, w) :: ps, k, h => by
      have h1 : k1 ≠ k := h (k1, w) (List.mem_cons_self _ _)
      simp only [jLookup, if_neg h1]
      exact jLookup_none_of_all ps k (fun p hp => h p (List.mem_cons_of_mem _ hp))

theorem jLookup_jErase_self : ∀ (ps : List (String × JValue)) (k : String),
    nodupKeysB ps = true → jLookup (jErase ps k) k = none
  | [], k, _ => rfl
  | (k1, w) :: ps, k, h => by
      rw [nodupKeysB_cons, Bool.and_eq_true] at h
      by_cases h1 : k1 = k
      · subst h1
        simp only [jErase, if_true, eq_self_iff_true, ite_true]
        refine jLookup_none_of_all ps k1 ?_
        intro p hp
        have := (List.all_eq_true.mp h.1) p hp
        simpa using this
      · simp only [jErase, if_neg h1, jLookup]
        exact jLookup_jErase_self ps k h.2


theorem jLookup_jErase_ne : ∀ (ps : List (String × JValue)) (k k2 : String),
    k ≠ k2 → jLookup (jErase ps k) k2 = jLookup ps k2
  | [], k, k2, _ => rfl
  | (k1, w) :: ps, k, k2, h => by
      by_cases h1 : k1 = k
      · subst h1
        simp [jErase, jLookup, h]
      · by_cases h2 : k1 = k2
        · subst h2
          simp [jErase, jLookup, h1]
        · simpa [jErase, jLookup, h1, h2] using jLookup_jErase_ne ps k k2 h

theorem filter_of_jLookup : ∀ (ps : List (String × JValue)) (k : String) (v : JValue),
    nodupKeysB ps = true → jLookup ps k = some v →
    ps.filter (fun p => p.1 == k) = [(k, v)]
  | [], k, v, _, hl => by simp [jLookup] at hl
  | (k1, w) :: ps, k, v, h, hl => by
      rw [nodupKeysB_cons, Bool.and_eq_true] at h
      by_cases h1 : k1 = k
      · subst h1
        simp [jLookup] at hl
        subst hl
        have hnil : ps.filter (fun p => p.1 == k1) = [] := by
          rw [List.filter_eq_nil_iff]
          intro p hp
          have := (List.all_eq_true.mp h.1) p hp
          simpa using this
        simp [List.filter_cons, hnil]
      · simp only [jLookup, if_neg h1] at hl
        simp only [List.filter_cons]
        rw [if_neg (by simpa using h1)]
        exact filter_of_jLookup ps k v h.2 hl

theorem jInsert_append : ∀ (ps : List (String × JValue)) (k : String) (v : JValue),
    (∀ p ∈ ps, p.1 ≠ k) → jInsert ps k v = ps ++ [(k, v)]
  | [], k, v, _ => rfl
  | (k1, w) :: ps, k, v, h => by
      have h1 : k1 ≠ k := h (k1, w) (List.mem_cons_self _ _)
      simp only [jInsert, if_neg h1, List.cons_append, List.cons.injEq, true_and]
      exact jInsert_append ps k v (fun p hp => h p (List.mem_cons_of_mem _ hp))

theorem pyDictUpdate_cons (acc : List (String × JValue)) (k : String) (v : JValue)
    (ps : List (String × JValue)) :
    pyDictUpdate acc ((k, v) :: ps) = pyDictUpdate (jInsert acc k v) ps := rfl

theorem pyDictUpdate_disjoint : ∀ (ps acc : List (String × JValue)),
    nodupKeysB ps = true → (∀ p ∈ ps, ∀ q ∈ acc, p.1 ≠ q.1) →
    pyDictUpdate acc ps = acc ++ ps
  | [], acc, _, _ => by simp [pyDictUpdate]
  | (k, v) :: ps, acc, h, hd => by
      rw [nodupKeysB_cons, Bool.and_eq_true] at h
      rw [pyDictUpdate_cons]
      rw [jInsert_append acc k v
        (fun q hq => Ne.symm (hd (k, v) (List.mem_cons_self _ _) q hq))]
      rw [pyDictUpdate_disjoint ps (acc ++ [(k, v)]) h.2 ?_]
      · simp
      · intro p hp q hq
        rcases List.mem_append.mp hq with hq1 | hq2
        · exact hd p (List.mem_cons_of_mem _ hp) q hq1
        · simp at hq2
          subst hq2
          have := (List.all_eq_true.mp h.1) p hp
          simpa using this

theorem pyDictUpdate_nil (ps : List (String × JValue)) (h : nodupKeysB ps = true) :
    pyDictUpdate [] ps = ps := by
  rw [pyDictUpdate_disjoint ps [] h (by simp)]
  simp

/-! ### Lemmas: well-formedness helpers -/

theorem JWFI_iff : ∀ xs : List JValue, JWFI xs = true ↔ ∀ x ∈ xs, JWFV x = true
  | [] => by simp [JWFI]
  | x :: xs => by
      rw [JWFI, Bool.and_eq_true, JWFI_iff xs]
      simp

theorem JWFM_iff : ∀ ps : List (String × JValue), JWFM ps = true ↔ ∀ p ∈ ps, JWFV p.2 = true
  | [] => by simp [JWFM]
  | (k, v) :: ps => by
      rw [JWFM, Bool.and_eq_true, JWFM_iff ps]
      constructor
      · rintro ⟨h1, h2⟩ p hp
        rcases List.mem_cons.mp hp with rfl | hp2
        · exact h1
        · exact h2 p hp2
      · intro h
        exact ⟨h (k, v) (List.mem_cons_self _ _), fun p hp => h p (List.mem_cons_of_mem _ hp)⟩

theorem JWFM_jInsert (ps : List (String × JValue)) (k : String) (v : JValue)
    (h : JWFM ps = true) (hv : JWFV v = true) : JWFM (jInsert ps k v) = true := by
  rw [JWFM_iff]
  intro q hq
  rcases mem_jInsert ps k v q hq with rfl | hq2
  · exact hv
  · exact (JWFM_iff ps).mp h q hq2

theorem JWFM_jErase (ps : List (String × JValue)) (k : String)
    (h : JWFM ps = true) : JWFM (jErase ps k) = true := by
  rw [JWFM_iff]
  intro q hq
  exact (JWFM_iff ps).mp h q (mem_jErase ps k q hq)

theorem JWFV_obj_jInsert {ps : List (String × JValue)} {k : String} {v : JValue}
    (h : JWFV (.obj ps) = true) (hv : JWFV v = true) : JWFV (.obj (jInsert ps k v)) = true := by
  rw [JWFV, Bool.and_eq_true] at h ⊢
  exact ⟨nodupKeysB_jInsert ps k v h.1, JWFM_jInsert ps k v h.2 hv⟩

theorem JWFV_obj_jErase {ps : List (String × JValue)} {k : String}
    (h : JWFV (.obj ps) = true) : JWFV (.obj (jErase ps k)) = true := by
  rw [JWFV, Bool.and_eq_true] at h ⊢
  exact ⟨nodupKeysB_jErase ps k h.1, JWFM_jErase ps k h.2⟩

/-! ### Lemmas: serializer shape -/

theorem noDigitHead_cons : ∀ {c : Char} {l : List Char}, isDigitChar c = false → noDigitHead (c :: l) :=
  fun h => h

theorem isDigitChar_not_ws {c : Char} (h : isDigitChar c = true) : isJsonWs c = false := by
  have s1 : c ≠ ' ' := fun he => by subst he; exact absurd h (by decide)
  have s2 : c ≠ '\t' := fun he => by subst he; exact absurd h (by decide)
  have s3 : c ≠ '\n' := fun he => by subst he; exact absurd h (by decide)
  have s4 : c ≠ Char.ofNat 13 := fun he => by subst he; exact absurd h (by decide)
  simp [isJsonWs, s1, s2, s3, s4]

theorem isDigitChar_ne_rb {c : Char} (h : isDigitChar c = true) : c ≠ ']' :=
  fun he => by subst he; exact absurd h (by decide)

theorem isDigitChar_dispatch {c : Char} (h : isDigitChar c = true) :
    c ≠ '{' ∧ c ≠ '[' ∧ c ≠ Char.ofNat 34 ∧ c ≠ 't' ∧ c ≠ 'f' ∧ c ≠ 'n' := by
  refine ⟨?_, ?_, ?_, ?_, ?_, ?_⟩ <;>
    exact fun he => by subst he; exact absurd h (by decide)

theorem serValue_head (v : JValue) (lvl : Nat) :
    ∃ c cs, serValue v lvl = c :: cs ∧ isJsonWs c = false ∧ c ≠ ']' := by
  cases v with
  | null => exact ⟨'n', _, rfl, by decide, by decide⟩
  | bool b =>
      cases b
      · exact ⟨'f', _, rfl, by decide, by decide⟩
      · exact ⟨'t', _, rfl, by decide, by decide⟩
  | num i =>
      by_cases h : i < 0
      · exact ⟨'-', natChars i.natAbs, by simp [serValue, intChars, h], by decide, by decide⟩
      · obtain ⟨c, cs, hcs⟩ : ∃ c cs, natChars i.toNat = c :: cs := by
          cases hnc : natChars i.toNat with
          | nil => exact absurd hnc (natChars_ne_nil _)
          | cons c cs => exact ⟨c, cs, rfl⟩
        have hd : isDigitChar c = true := natChars_digits _ c (by rw [hcs]; simp)
        exact ⟨c, cs, by simp [serValue, intChars, h, hcs],
          isDigitChar_not_ws hd, isDigitChar_ne_rb hd⟩
  | str s =>
      refine ⟨Char.ofNat 34, escapeString s ++ [Char.ofNat 34], ?_, by decide, by decide⟩
      simp [serValue, serString]
  | arr xs =>
      cases xs with
      | nil => exact ⟨'[', [']'], rfl, by decide, by decide⟩
      | cons x t => exact ⟨'[', _, rfl, by decide, by decide⟩
  | obj ps =>
      cases ps with
      | nil => exact ⟨'{', ['}'], rfl, by decide, by decide⟩
      | cons p t => exact ⟨'{', _, rfl, by decide, by decide⟩

theorem serValue_length_pos (v : JValue) (lvl : Nat) : 1 ≤ (serValue v lvl).length := by
  obtain ⟨c, cs, hcs, -, -⟩ := serValue_head v lvl
  simp [hcs]

theorem serItems_head (y : JValue) (t : List JValue) (lvl : Nat) :
    ∃ c cs, serItems (y :: t) lvl = c :: cs ∧ isJsonWs c = false ∧ c ≠ ']' := by
  obtain ⟨c, cs0, hcs, hws, hrb⟩ := serValue_head y lvl
  cases t with
  | nil => exact ⟨c, cs0, by simp [serItems, hcs], hws, hrb⟩
  | cons z t =>
      refine ⟨c, cs0 ++ ',' :: '\n' :: (indentChars lvl ++ serItems (z :: t) lvl), ?_, hws, hrb⟩
      rw [show serItems (y :: z :: t) lvl
          = serValue y lvl ++ ',' :: '\n' :: (indentChars lvl ++ serItems (z :: t) lvl) from rfl]
      rw [hcs, List.cons_append]

theorem serMembers_head (k : String) (v : JValue) (ps : List (String × JValue)) (lvl : Nat) :
    ∃ cs, serMembers ((k, v) :: ps) lvl = Char.ofNat 34 :: cs := by
  cases ps with
  | nil =>
      refine ⟨escapeString k ++ (Char.ofNat 34 :: (':' :: ' ' :: serValue v lvl)), ?_⟩
      rw [show serMembers [(k, v)] lvl = serString k ++ ':' :: ' ' :: serValue v lvl from rfl]
      rw [serString_append]
  | cons q t =>
      refine ⟨escapeString k ++ (Char.ofNat 34 :: (':' :: ' ' :: serValue v lvl
        ++ ',' :: '\n' :: (indentChars lvl ++ serMembers (q :: t) lvl))), ?_⟩
      rw [show serMembers ((k, v) :: q :: t) lvl
          = serString k ++ ':' :: ' ' :: serValue v lvl
            ++ ',' :: '\n' :: (indentChars lvl ++ serMembers (q :: t) lvl) from rfl]
      rw [List.append_assoc, serString_append]

/-! ### Fuel bounds for the parser -/

mutual

/-- Fuel sufficient for parseValue to reparse a serialized value. -/
def jNeedV : JValue → Nat
  | .null => 1
  | .bool _ => 1
  | .num _ => 1
  | .str _ => 1
  | .arr [] => 1
  | .arr (x :: xs) => 1 + jNeedI (x :: xs)
  | .obj [] => 1
  | .obj (p :: ps) => 1 + jNeedM (p :: ps)

def jNeedI : List JValue → Nat
  | [] => 0
  | x :: xs => 1 + max (jNeedV x) (jNeedI xs)

def jNeedM : List (String × JValue) → Nat
  | [] => 0
  | (_, v) :: ps => 1 + max (jNeedV v) (jNeedM ps)

end

mutual

theorem jNeedV_le : ∀ (v : JValue) (lvl : Nat), jNeedV v ≤ (serValue v lvl).length
  | .null, lvl => by simp [jNeedV, serValue]
  | .bool b, lvl => by cases b <;> simp [jNeedV, serValue]
  | .num i, lvl => by
      have := serValue_length_pos (.num i) lvl
      simpa [jNeedV] using this
  | .str s, lvl => by
      have := serValue_length_pos (.str s) lvl
      simpa [jNeedV] using this
  | .arr [], lvl => by simp [jNeedV, serValue]
  | .arr (x :: xs), lvl => by
      have h1 := jNeedI_le (x :: xs) (lvl + 1)
      rw [show jNeedV (.arr (x :: xs)) = 1 + jNeedI (x :: xs) from rfl]
      rw [show serValue (.arr (x :: xs)) lvl
          = '[' :: '\n' :: (indentChars (lvl + 1) ++ serItems (x :: xs) (lvl + 1)
            ++ '\n' :: (indentChars lvl ++ [']'])) from rfl]
      simp only [List.length_cons, List.length_append, indentChars, List.length_replicate]
      omega
  | .obj [], lvl => by simp [jNeedV, serValue]
  | .obj (p :: ps), lvl => by
      have h1 := jNeedM_le (p :: ps) (lvl + 1)
      rw [show jNeedV (.obj (p :: ps)) = 1 + jNeedM (p :: ps) from rfl]
      rw [show serValue (.obj (p :: ps)) lvl
          = '{' :: '\n' :: (indentChars (lvl + 1) ++ serMembers (p :: ps) (lvl + 1)
            ++ '\n' :: (indentChars lvl ++ ['}'])) from rfl]
      simp only [List.length_cons, List.length_append, indentChars, List.length_replicate]
      omega

theorem jNeedI_le : ∀ (xs : List JValue) (lvl : Nat), jNeedI xs ≤ 1 + (serItems xs lvl).length
  | [], lvl => by simp [jNeedI]
  | [x], lvl => by
      have h1 := jNeedV_le x lvl
      rw [show jNeedI [x] = 1 + max (jNeedV x) (jNeedI []) from rfl,
        show jNeedI ([] : List JValue) = 0 from rfl,
        show serItems [x] lvl = serValue x lvl from rfl]
      omega
  | x :: y :: t, lvl => by
      have h1 := jNeedV_le x lvl
      have h2 := jNeedI_le (y :: t) lvl
      rw [show jNeedI (x :: y :: t) = 1 + max (jNeedV x) (jNeedI (y :: t)) from rfl,
        show serItems (x :: y :: t) lvl
          = serValue x lvl ++ ',' :: '\n' :: (indentChars lvl ++ serItems (y :: t) lvl) from rfl]
      simp only [List.length_append, List.length_cons, indentChars, List.length_replicate]
      omega

theorem jNeedM_le : ∀ (ps : List (String × JValue)) (lvl : Nat), jNeedM ps ≤ 1 + (serMembers ps lvl).length
  | [], lvl => by simp [jNeedM]
  | [(k, v)], lvl => by
      have h1 := jNeedV_le v lvl
      rw [show jNeedM [(k, v)] = 1 + max (jNeedV v) (jNeedM []) from rfl,
        show jNeedM ([] : List (String × JValue)) = 0 from rfl,
        show serMembers [(k, v)] lvl = serString k ++ ':' :: ' ' :: serValue v lvl from rfl]
      simp only [List.length_append, List.length_cons]
      omega
  | (k, v) :: q :: t, lvl => by
      have h1 := jNeedV_le v lvl
      have h2 := jNeedM_le (q :: t) lvl
      rw [show jNeedM ((k, v) :: q :: t) = 1 + max (jNeedV v) (jNeedM (q :: t)) from rfl,
        show serMembers ((k, v) :: q :: t) lvl
          = serString k ++ ':' :: ' ' :: serValue v lvl
            ++ ',' :: '\n' :: (indentChars lvl ++ serMembers (q :: t) lvl) from rfl]
      simp only [List.length_append, List.length_cons, indentChars, List.length_replicate]
      omega

end

/-! ### The round trip: parsing a serialized document gives it back -/

mutual

theorem parse_serValue : ∀ (v : JValue) (lvl : Nat) (rest : List Char) (fuel : Nat),
    jNeedV v ≤ fuel → noDigitHead rest → JWFV v = true →
    parseValue fuel (serValue v lvl ++ rest) = some (v, rest)
  | .null, lvl, rest, fuel, hf, hr, hw => by
      cases fuel with
      | zero => exact absurd hf (by simp [jNeedV])
      | succ f => simp [parseValue, serValue]
  | .bool b, lvl, rest, fuel, hf, hr, hw => by
      cases fuel with
      | zero => exact absurd hf (by simp [jNeedV])
      | succ f => cases b <;> simp [parseValue, serValue]
  | .num i, lvl, rest, fuel, hf, hr, hw => by
      cases fuel with
      | zero => exact absurd hf (by simp [jNeedV])
      | succ f =>
          obtain ⟨c, cs, hcs, hcd⟩ :
              ∃ c cs, intChars i = c :: cs ∧ (c = '-' ∨ isDigitChar c = true) := by
            by_cases h : i < 0
            · exact ⟨'-', natChars i.natAbs, by simp [intChars, h], Or.inl rfl⟩
            · obtain ⟨c, cs, hcs⟩ : ∃ c cs, natChars i.toNat = c :: cs := by
                cases hnc : natChars i.toNat with
                | nil => exact absurd hnc (natChars_ne_nil _)
                | cons c cs => exact ⟨c, cs, rfl⟩
              exact ⟨c, cs, by simp [intChars, h, hcs],
                Or.inr (natChars_digits _ c (by rw [hcs]; simp))⟩
          have hd : c ≠ '{' ∧ c ≠ '[' ∧ c ≠ Char.ofNat 34 ∧ c ≠ 't' ∧ c ≠ 'f' ∧ c ≠ 'n' := by
            rcases hcd with rfl | hcd
            · exact ⟨by decide, by decide, by decide, by decide, by decide, by decide⟩
            · exact isDigitChar_dispatch hcd
          rw [show serValue (.num i) lvl = intChars i from rfl, hcs, List.cons_append]
          simp only [parseValue]
          rw [if_neg hd.1, if_neg hd.2.1, if_neg hd.2.2.1, if_neg hd.2.2.2.1,
            if_neg hd.2.2.2.2.1, if_neg hd.2.2.2.2.2]
          rw [← List.cons_append, ← hcs, parseNumber_intChars i rest hr]
          rfl
  | .str s, lvl, rest, fuel, hf, hr, hw => by
      cases fuel with
      | zero => exact absurd hf (by simp [jNeedV])
      | succ f =>
          rw [show serValue (.str s) lvl = serString s from rfl, serString_append]
          simp only [parseValue]
          simp [parse_serString]
  | .arr [], lvl, rest, fuel, hf, hr, hw => by
      cases fuel with
      | zero => exact absurd hf (by simp [jNeedV])
      | succ f =>
          rw [show serValue (.arr []) lvl = ['[', ']'] from rfl]
          simp only [List.cons_append, List.nil_append, parseValue]
          rw [skipWs_cons_not (by decide)]
          simp
  | .arr (x :: xs), lvl, rest, fuel, hf, hr, hw => by
      cases fuel with
      | zero =>
          exfalso
          have h1 : jNeedV (.arr (x :: xs)) = 1 + jNeedI (x :: xs) := rfl
          omega
      | succ f =>
          have hfI : jNeedI (x :: xs) ≤ f := by
            have h1 : jNeedV (.arr (x :: xs)) = 1 + jNeedI (x :: xs) := rfl
            omega
          have hwI : JWFI (x :: xs) = true := hw
          rw [show serValue (.arr (x :: xs)) lvl
              = '[' :: '\n' :: (indentChars (lvl + 1) ++ serItems (x :: xs) (lvl + 1)
                ++ '\n' :: (indentChars lvl ++ [']'])) from rfl]
          simp only [List.cons_append, List.append_assoc, List.singleton_append, List.nil_append]
          simp only [parseValue]
          rw [if_neg (show ¬('[' : Char) = '{' from by decide)]
          simp only [eq_self_iff_true, if_true, ite_true]
          rw [skipWs_nl, skipWs_indent]
          obtain ⟨c, cs2, hcs, hws, hrb⟩ := serItems_head x xs (lvl + 1)
          rw [hcs, List.cons_append, skipWs_cons_not hws]
          have hres := parse_serItems (x :: xs) lvl rest f [] (by simp) hfI hr hwI
          rw [hcs, List.cons_append] at hres
          split
          · next r heq =>
              rw [List.cons.injEq] at heq
              exact absurd heq.1 hrb
          · next cs3 heq =>
              simpa using hres
  | .obj [], lvl, rest, fuel, hf, hr, hw => by
      cases fuel with
      | zero => exact absurd hf (by simp [jNeedV])
      | succ f =>
          rw [show serValue (.obj []) lvl = ['{', '}'] from rfl]
          simp only [List.cons_append, List.nil_append, parseValue]
          rw [skipWs_cons_not (by decide)]
          simp
  | .obj (p :: ps), lvl, rest, fuel, hf, hr, hw => by
      cases fuel with
      | zero =>
          exfalso
          have h1 : jNeedV (.obj (p :: ps)) = 1 + jNeedM (p :: ps) := rfl
          omega
      | succ f =>
          obtain ⟨k, v⟩ := p
          have hfM : jNeedM ((k, v) :: ps) ≤ f := by
            have h1 : jNeedV (.obj ((k, v) :: ps)) = 1 + jNeedM ((k, v) :: ps) := rfl
            omega
          have hwV : JWFV (.obj ((k, v) :: ps)) = true := hw
          rw [JWFV, Bool.and_eq_true] at hwV
          rw [show serValue (.obj ((k, v) :: ps)) lvl
              = '{' :: '\n' :: (indentChars (lvl + 1) ++ serMembers ((k, v) :: ps) (lvl + 1)
                ++ '\n' :: (indentChars lvl ++ ['}'])) from rfl]
          simp only [List.cons_append, List.append_assoc, List.singleton_append, List.nil_append]
          simp only [parseValue]
          simp only [eq_self_iff_true, if_true, ite_true]
          rw [skipWs_nl, skipWs_indent]
          obtain ⟨cs2, hcs⟩ := serMembers_head k v ps (lvl + 1)
          rw [hcs, List.cons_append, skipWs_cons_not (by decide)]
          have hres := parse_serMembers ((k, v) :: ps) lvl rest f [] (by simp) hfM hr hwV.2
          rw [hcs, List.cons_append] at hres
          split
          · next r heq =>
              rw [List.cons.injEq] at heq
              exact absurd heq.1 (by decide)
          · next cs3 heq =>
              rw [hres, pyDictUpdate_nil ((k, v) :: ps) hwV.1]

theorem parse_serItems : ∀ (xs : List JValue) (lvl : Nat) (rest : List Char) (fuel : Nat)
    (acc : List JValue),
    xs ≠ [] → jNeedI xs ≤ fuel → noDigitHead rest → JWFI xs = true →
    parseItems fuel (serItems xs (lvl + 1) ++ ('\n' :: (indentChars lvl ++ (']' :: rest)))) acc
      = some (.arr (acc.reverse ++ xs), rest)
  | [], _, _, _, _, hne, _, _, _ => absurd rfl hne
  | [x], lvl, rest, fuel, acc, _, hf, hr, hw => by
      cases fuel with
      | zero =>
          exfalso
          have h1 : jNeedI [x] = 1 + max (jNeedV x) (jNeedI []) := rfl
          omega
      | succ f =>
          have hx : jNeedV x ≤ f := by
            have h1 : jNeedI [x] = 1 + max (jNeedV x) (jNeedI []) := rfl
            omega
          have hwx : JWFV x = true := by
            have h1 : JWFI [x] = (JWFV x && JWFI []) := rfl
            rw [h1, Bool.and_eq_true] at hw
            exact hw.1
          rw [show serItems [x] (lvl + 1) = serValue x (lvl + 1) from rfl]
          simp only [parseItems]
          rw [parse_serValue x (lvl + 1) _ f hx (noDigitHead_cons (by decide)) hwx]
          simp only [skipWs_nl, skipWs_indent]
          rw [skipWs_cons_not (by decide)]
          simp [List.reverse_cons]
  | x :: y :: t, lvl, rest, fuel, acc, _, hf, hr, hw => by
      cases fuel with
      | zero =>
          exfalso
          have h1 : jNeedI (x :: y :: t) = 1 + max (jNeedV x) (jNeedI (y :: t)) := rfl
          omega
      | succ f =>
          have hx : jNeedV x ≤ f := by
            have h1 : jNeedI (x :: y :: t) = 1 + max (jNeedV x) (jNeedI (y :: t)) := rfl
            omega
          have hyt : jNeedI (y :: t) ≤ f := by
            have h1 : jNeedI (x :: y :: t) = 1 + max (jNeedV x) (jNeedI (y :: t)) := rfl
            omega
          have hw2 : JWFV x = true ∧ JWFI (y :: t) = true := by
            have h1 : JWFI (x :: y :: t) = (JWFV x && JWFI (y :: t)) := rfl
            rw [h1, Bool.and_eq_true] at hw
            exact hw
          rw [show serItems (x :: y :: t) (lvl + 1)
              = serValue x (lvl + 1)
                ++ ',' :: '\n' :: (indentChars (lvl + 1) ++ serItems (y :: t) (lvl + 1)) from rfl]
          simp only [List.cons_append, List.append_assoc]
          simp only [parseItems]
          rw [parse_serValue x (lvl + 1) _ f hx (noDigitHead_cons (by decide)) hw2.1]
          simp only [skipWs_cons_not (show isJsonWs ',' = false from by decide)]
          simp only [skipWs_nl, skipWs_indent]
          obtain ⟨c, cs2, hcs, hws, -⟩ := serItems_head y t (lvl + 1)
          rw [hcs, List.cons_append, skipWs_cons_not hws, ← List.cons_append, ← hcs]
          rw [parse_serItems (y :: t) lvl rest f (x :: acc) (by simp) hyt hr hw2.2]
          simp

theorem parse_serMembers : ∀ (ps : List (String × JValue)) (lvl : Nat) (rest : List Char)
    (fuel : Nat) (acc : List (String × JValue)),
    ps ≠ [] → jNeedM ps ≤ fuel → noDigitHead rest → JWFM ps = true →
    parseMembers fuel (serMembers ps (lvl + 1) ++ ('\n' :: (indentChars lvl ++ ('}' :: rest)))) acc
      = some (.obj (pyDictUpdate acc ps), rest)
  | [], _, _, _, _, hne, _, _, _ => absurd rfl hne
  | [(k, v)], lvl, rest, fuel, acc, _, hf, hr, hw => by
      cases fuel with
      | zero =>
          exfalso
          have h1 : jNeedM [(k, v)] = 1 + max (jNeedV v) (jNeedM []) := rfl
          omega
      | succ f =>
          have hv : jNeedV v ≤ f := by
            have h1 : jNeedM [(k, v)] = 1 + max (jNeedV v) (jNeedM []) := rfl
            omega
          have hwv : JWFV v = true := by
            have h1 : JWFM [(k, v)] = (JWFV v && JWFM []) := rfl
            rw [h1, Bool.and_eq_true] at hw
            exact hw.1
          rw [show serMembers [(k, v)] (lvl + 1)
              = serString k ++ ':' :: ' ' :: serValue v (lvl + 1) from rfl]
          simp only [List.cons_append, List.append_assoc]
          rw [serString_append]
          simp only [parseMembers]
          simp only [eq_self_iff_true, if_true, ite_true]
          rw [parse_serString]
          simp only [skipWs_cons_not (show isJsonWs ':' = false from by decide)]
          simp only [skipWs_cons_ws (show isJsonWs ' ' = true from by decide)]
          obtain ⟨c, cs2, hcs, hws, -⟩ := serValue_head v (lvl + 1)
          rw [hcs, List.cons_append, skipWs_cons_not hws, ← List.cons_append, ← hcs]
          rw [parse_serValue v (lvl + 1) _ f hv (noDigitHead_cons (by decide)) hwv]
          simp only [skipWs_nl, skipWs_indent]
          rw [skipWs_cons_not (by decide)]
          simp [pyDictUpdate]
  | (k, v) :: q :: t, lvl, rest, fuel, acc, _, hf, hr, hw => by
      cases fuel with
      | zero =>
          exfalso
          have h1 : jNeedM ((k, v) :: q :: t) = 1 + max (jNeedV v) (jNeedM (q :: t)) := rfl
          omega
      | succ f =>
          have hv : jNeedV v ≤ f := by
            have h1 : jNeedM ((k, v) :: q :: t) = 1 + max (jNeedV v) (jNeedM (q :: t)) := rfl
            omega
          have hqt : jNeedM (q :: t) ≤ f := by
            have h1 : jNeedM ((k, v) :: q :: t) = 1 + max (jNeedV v) (jNeedM (q :: t)) := rfl
            omega
          have hw2 : JWFV v = true ∧ JWFM (q :: t) = true := by
            have h1 : JWFM ((k, v) :: q :: t) = (JWFV v && JWFM (q :: t)) := rfl
            rw [h1, Bool.and_eq_true] at hw
            exact hw
          obtain ⟨k2, v2⟩ := q
          rw [show serMembers ((k, v) :: (k2, v2) :: t) (lvl + 1)
              = serString k ++ ':' :: ' ' :: serValue v (lvl + 1)
                ++ ',' :: '\n' :: (indentChars (lvl + 1) ++ serMembers ((k2, v2) :: t) (lvl + 1))
              from rfl]
          simp only [List.cons_append, List.append_assoc]
          rw [serString_append]
          simp only [parseMembers]
          simp only [eq_self_iff_true, if_true, ite_true]
          rw [parse_serString]
          simp only [skipWs_cons_not (show isJsonWs ':' = false from by decide)]
          simp only [skipWs_cons_ws (show isJsonWs ' ' = true from by decide)]
          obtain ⟨c, cs2, hcs, hws, -⟩ := serValue_head v (lvl + 1)
          rw [hcs, List.cons_append, skipWs_cons_not hws, ← List.cons_append, ← hcs]
          rw [parse_serValue v (lvl + 1) _ f hv (noDigitHead_cons (by decide)) hw2.1]
          simp only [skipWs_cons_not (show isJsonWs ',' = false from by decide)]
          simp only [skipWs_nl, skipWs_indent]
          obtain ⟨cs3, hcs3⟩ := serMembers_head k2 v2 t (lvl + 1)
          rw [hcs3, List.cons_append, skipWs_cons_not (by decide), ← List.cons_append, ← hcs3]
          rw [parse_serMembers ((k2, v2) :: t) lvl rest f (jInsert acc k v) (by simp) hqt hr hw2.2]
          rfl

end

/-- json.loads inverts json.dumps on every well-formed document. -/
theorem json_loads_jdump (j : JValue) (hw : JWFV j = true) : json_loads (jdump j) = some j := by
  unfold json_loads jdump
  obtain ⟨c, cs, hcs, hws, -⟩ := serValue_head j 0
  have hni : jNeedV j ≤ 2 * (String.mk (serValue j 0)).length + 2 := by
    have h1 := jNeedV_le j 0
    have h2 : (String.mk (serValue j 0)).length = (serValue j 0).length := rfl
    omega
  have hparse := parse_serValue j 0 [] (2 * (String.mk (serValue j 0)).length + 2) hni trivial hw
  rw [List.append_nil] at hparse
  rw [show (String.mk (serValue j 0)).data = serValue j 0 from rfl]
  rw [hcs, skipWs_cons_not hws, ← hcs, hparse]
  simp [skipWs]

/-! ### The parser only produces well-formed documents -/

mutual

theorem parseValue_wf : ∀ (fuel : Nat) (cs : List Char) (v : JValue) (rest : List Char),
    parseValue fuel cs = some (v, rest) → JWFV v = true
  | 0, cs, v, rest, h => by simp [parseValue] at h
  | fuel + 1, cs, v, rest, h => by
      cases cs with
      | nil => simp [parseValue] at h
      | cons c cs1 =>
          simp only [parseValue] at h
          split at h
          · split at h
            · rw [Option.some.injEq, Prod.mk.injEq] at h
              obtain ⟨h1, -⟩ := h
              subst h1
              decide
            · exact parseMembers_wf fuel _ [] v rest (by decide) (by decide) h
          · split at h
            · split at h
              · rw [Option.some.injEq, Prod.mk.injEq] at h
                obtain ⟨h1, -⟩ := h
                subst h1
                decide
              · exact parseItems_wf fuel _ [] v rest (by simp) h
            · split at h
              · cases hps : parseStringBody cs1 [] with
                | none => rw [hps] at h; simp at h
                | some p =>
                    rw [hps] at h
                    simp only [Option.map_some', Option.some.injEq, Prod.mk.injEq] at h
                    obtain ⟨h1, -⟩ := h
                    subst h1
                    rfl
              · split at h
                · split at h
                  · rw [Option.some.injEq, Prod.mk.injEq] at h
                    obtain ⟨h1, -⟩ := h
                    subst h1
                    decide
                  · simp at h
                · split at h
                  · split at h
                    · rw [Option.some.injEq, Prod.mk.injEq] at h
                      obtain ⟨h1, -⟩ := h
                      subst h1
                      decide
                    · simp at h
                  · split at h
                    · split at h
                      · rw [Option.some.injEq, Prod.mk.injEq] at h
                        obtain ⟨h1, -⟩ := h
                        subst h1
                        decide
                      · simp at h
                    · cases hpn : parseNumber (c :: cs1) with
                      | none => rw [hpn] at h; simp at h
                      | some p =>
                          rw [hpn] at h
                          simp only [Option.map_some', Option.some.injEq, Prod.mk.injEq] at h
                          obtain ⟨h1, -⟩ := h
                          subst h1
                          rfl

theorem parseItems_wf : ∀ (fuel : Nat) (cs : List Char) (acc : List JValue) (v : JValue)
    (rest : List Char),
    (∀ x ∈ acc, JWFV x = true) → parseItems fuel cs acc = some (v, rest) → JWFV v = true
  | 0, cs, acc, v, rest, _, h => by simp [parseItems] at h
  | fuel + 1, cs, acc, v, rest, hacc, h => by
      simp only [parseItems] at h
      cases hpv : parseValue fuel cs with
      | none => rw [hpv] at h; simp at h
      | some p =>
          obtain ⟨w, r1⟩ := p
          have hwv : JWFV w = true := parseValue_wf fuel cs w r1 hpv
          rw [hpv] at h
          dsimp only [] at h
          split at h
          · exact parseItems_wf fuel _ (w :: acc) v rest
              (by
                intro x hx
                rcases List.mem_cons.mp hx with rfl | hx2
                · exact hwv
                · exact hacc x hx2) h
          · rw [Option.some.injEq, Prod.mk.injEq] at h
            obtain ⟨h1, -⟩ := h
            subst h1
            rw [show JWFV (.arr (w :: acc).reverse) = JWFI (w :: acc).reverse from rfl]
            rw [JWFI_iff]
            intro x hx
            rw [List.mem_reverse] at hx
            rcases List.mem_cons.mp hx with rfl | hx2
            · exact hwv
            · exact hacc x hx2
          · simp at h

theorem parseMembers_wf : ∀ (fuel : Nat) (cs : List Char) (acc : List (String × JValue))
    (v : JValue) (rest : List Char),
    nodupKeysB acc = true → JWFM acc = true →
    parseMembers fuel cs acc = some (v, rest) → JWFV v = true
  | 0, cs, acc, v, rest, _, _, h => by simp [parseMembers] at h
  | fuel + 1, [], acc, v, rest, _, _, h => by simp [parseMembers] at h
  | fuel + 1, c :: cs1, acc, v, rest, hnd, hacc, h => by
      simp only [parseMembers] at h
      split at h
      · cases hps : parseStringBody cs1 [] with
        | none => rw [hps] at h; simp at h
        | some p =>
            obtain ⟨k, r1⟩ := p
            rw [hps] at h
            dsimp only [] at h
            split at h
            · rename_i rest1 heq
              cases hpv : parseValue fuel (skipWs rest1) with
              | none => rw [hpv] at h; simp at h
              | some q =>
                  obtain ⟨w, r2⟩ := q
                  have hwv : JWFV w = true := parseValue_wf fuel _ w r2 hpv
                  rw [hpv] at h
                  dsimp only [] at h
                  split at h
                  · exact parseMembers_wf fuel _ (jInsert acc k w) v rest
                      (nodupKeysB_jInsert acc k w hnd) (JWFM_jInsert acc k w hacc hwv) h
                  · rw [Option.some.injEq, Prod.mk.injEq] at h
                    obtain ⟨h1, -⟩ := h
                    subst h1
                    rw [JWFV, Bool.and_eq_true]
                    exact ⟨nodupKeysB_jInsert acc k w hnd, JWFM_jInsert acc k w hacc hwv⟩
                  · simp at h
            · simp at h
      · simp at h

end

/-! ### MappingManager (src/script_magic/mapping_manager.py), state-passing -/

/-- The on-disk state of the mapping file path: missing, readable with
some raw content, or failing with an IO error other than file-not-found
(for example a permission error). -/
inductive FileData where
  | missing
  | raw (content : String)
  | ioErr
  deriving DecidableEq

/-- The state a MappingManager instance operates on: the mapping.json
file, the gist_id.txt file (none = missing), and the object's loaded
gist_id attribute. -/
structure MM where
  file : FileData
  gistFile : Option String
  gist_id : Option String
  deriving DecidableEq

/-- The empty store the module creates and defaults to:
{"scripts": {}, "last_synced": null}. -/
def emptyMapping : JValue := .obj [("scripts", .obj []), ("last_synced", .null)]

/-- MappingManager._read_mapping: json.load of the file; FileNotFoundError
and json.JSONDecodeError are caught and yield the empty store; any other
exception is re-raised (the error result). -/
def readMappingE (st : MM) : Except Unit JValue :=
  match st.file with
  | .missing => .ok emptyMapping
  | .raw s => .ok ((json_loads s).getD emptyMapping)
  | .ioErr => .error ()

/-- MappingManager._write_mapping: open(file, "w") + json.dump(data, f,
indent=2, ensure_ascii=False) — afterwards the file holds exactly the
serialized document. -/
def writeMappingF (j : JValue) (st : MM) : MM := { st with file := .raw (jdump j) }

/-- The on-disk contents the mapping file passes through during
_write_mapping: open(..., "w") first truncates the file, then json.dump
streams the serialized text, so the intermediate states are exactly the
prefixes of the new content (starting from the empty file and ending with
the complete new content).  The source has no write-to-temp-and-rename
step. -/
def writeMappingStates (j : JValue) : List FileData :=
  (List.range ((serValue j 0).length + 1)).map (fun i => .raw (String.mk ((serValue j 0).take i)))

/-- MappingManager._save_gist_id: writes the id file and sets the
attribute; its own exceptions are swallowed. -/
def saveGistId (gid : String) (st : MM) : MM :=
  { st with gistFile := some gid, gist_id := some gid }

/-- Python truthiness of the gist_id attribute (`if not self.gist_id`):
falsy when None or the empty string. -/
def gistIdTruthy (o : Option String) : Bool := o.getD "" ≠ ""

/-- MappingManager._sync_to_github, with the remote push
(github_integration.sync_mapping_file, not under src/) as a function
parameter.  Modelled from the spec: `push(store, existingId) -> id`
serializes the store to the remote blob, creating it (returning a fresh
identifier) when existingId is absent, and raises on any remote failure;
quantifying over the parameter covers every possible remote behaviour.
`now` stands for datetime.datetime.now().isoformat().  An error result
carries the state at the moment the exception is raised. -/
def syncToGithub (push : JValue → Option String → Except Unit String) (now : String) (st : MM) :
    Except MM MM :=
  match readMappingE st with
  | .error _ => .error st
  | .ok data =>
      match push data st.gist_id with
      | .error _ => .error st
      | .ok gid =>
          let st1 := if gistIdTruthy st.gist_id then st else saveGistId gid st
          match data with
          | .obj dps => .ok (writeMappingF (.obj (jInsert dps "last_synced" (.str now))) st1)
          | _ => .error st1

/-- MappingManager.sync_mapping: wraps _sync_to_github and returns False
instead of raising on any failure. -/
def sync_mapping (push : JValue → Option String → Except Unit String) (now : String) (st : MM) :
    Bool × MM :=
  match syncToGithub push now st with
  | .ok st1 => (true, st1)
  | .error st1 => (false, st1)

/-- Python truthiness of a JSON value (`if script_data:`). -/
def jTruthy : JValue → Bool
  | .null => false
  | .bool b => b
  | .num n => n ≠ 0
  | .str s => s ≠ ""
  | .arr l => l ≠ []
  | .obj l => l ≠ []

/-- MappingManager.lookup_script: mapping_data.get("scripts", {}).get(name)
inside a try/except that turns any error into None; the `if script_data:`
truthiness test also reports a falsy record as None. -/
def lookup_script (st : MM) (name : String) : Option JValue :=
  match readMappingE st with
  | .error _ => none
  | .ok data =>
      match data with
      | .obj dps =>
          match (jLookup dps "scripts").getD (.obj []) with
          | .obj sps =>
              match jLookup sps name with
              | some sd => if jTruthy sd then some sd else none
              | none => none
          | _ => none
      | _ => none

/-- One entry of the list_scripts result: {"name": name, **data}. -/
def listedEntry (name : String) (data : List (String × JValue)) : JValue :=
  .obj (pyDictUpdate [("name", .str name)] data)

/-- The loop of list_scripts: each record is splatted into a fresh dict;
a non-dict record raises (the caller catches and returns []). -/
def listEntries : List (String × JValue) → Option (List JValue)
  | [] => some []
  | (name, .obj d) :: rest => (listEntries rest).map (fun r => listedEntry name d :: r)
  | _ => none

/-- MappingManager.list_scripts: the records with a "name" field merged
in, or [] on any error. -/
def list_scripts (st : MM) : List JValue :=
  match readMappingE st with
  | .error _ => []
  | .ok data =>
      match data with
      | .obj dps =>
          match (jLookup dps "scripts").getD (.obj []) with
          | .obj sps => (listEntries sps).getD []
          | _ => []
      | _ => []

/-- MappingManager.get_script_info: scan list_scripts() for the first
entry whose "name" field equals the requested name. -/
def get_script_info (st : MM) (name : String) : Option JValue :=
  (list_scripts st).find? (fun s =>
    match s with
    | .obj ps => (jLookup ps "name").getD .null == .str name
    | _ => false)

/-- The entry add_script builds:
{"gist_id": gist_id, "created_at": now, **metadata}. -/
def scriptEntry (gist_id now : String) (metadata : List (String × JValue)) :
    List (String × JValue) :=
  pyDictUpdate [("gist_id", .str gist_id), ("created_at", .str now)] metadata

/-- MappingManager.add_script: read, upsert the entry under script_name,
write, then opportunistically sync_mapping when sync is set (its failure
is logged and swallowed).  Exceptions before the write (unreadable file,
store that is not a dict or has no "scripts" dict) are logged and
re-raised, leaving the state unchanged. -/
def add_script (push : JValue → Option String → Except Unit String)
    (script_name gist_id : String) (metadata : List (String × JValue)) (sync : Bool)
    (now : String) (st : MM) : Except MM MM :=
  match readMappingE st with
  | .error _ => .error st
  | .ok data =>
      match data with
      | .obj dps =>
          match jLookup dps "scripts" with
          | some (.obj sps) =>
              let data2 : JValue := .obj (jInsert dps "scripts"
                (.obj (jInsert sps script_name (.obj (scriptEntry gist_id now metadata)))))
              let st1 := writeMappingF data2 st
              if sync then .ok (sync_mapping push now st1).2 else .ok st1
          | _ => .error st
      | _ => .error st

/-- MappingManager.remove_script: False and no change when the name is
absent; otherwise delete, write, opportunistically sync (failures
swallowed, still True).  Stores whose "scripts" value is a non-dict are
outside the modelled states (the Python `in` test would raise a TypeError
for scalars there). -/
def remove_script (push : JValue → Option String → Except Unit String)
    (script_name : String) (sync : Bool) (now : String) (st : MM) : Except MM (Bool × MM) :=
  match readMappingE st with
  | .error _ => .error st
  | .ok data =>
      match data with
      | .obj dps =>
          match (jLookup dps "scripts").getD (.obj []) with
          | .obj sps =>
              if (jLookup sps script_name).isSome then
                let data2 : JValue := .obj (jInsert dps "scripts" (.obj (jErase sps script_name)))
                let st1 := writeMappingF data2 st
                if sync then .ok (true, (sync_mapping push now st1).2) else .ok (true, st1)
              else .ok (false, st)
          | _ => .error st
      | _ => .error st

/-- MappingManager._sync_from_github, with the remote pull
(github_integration.get_mapping_from_gist, not under src/) as a
parameter.  Modelled from the spec: `pull(id) -> MappingStore` fetches and
deserializes the remote blob, failing on any remote error. -/
def syncFromGithub (pull : String → Except Unit JValue) (st : MM) : Bool × MM :=
  if gistIdTruthy st.gist_id then
    match pull (st.gist_id.getD "") with
    | .ok data => (true, writeMappingF data st)
    | .error _ => (false, st)
  else (false, st)

/-! ### mapping_setup.py -/

/-- MappingManager.__init__: _ensure_mapping_file_exists (creating the
empty store when the file is missing) then _load_gist_id (read + strip,
errors swallowed). -/
def mmInit (fs : MM) : MM :=
  let fs1 := match fs.file with
    | .missing => { fs with file := .raw (jdump emptyMapping) }
    | _ => fs
  { fs1 with gist_id := fs1.gistFile.map String.trim }

/-- The remote operations setup_mapping can reach
(github_gist_finder.select_best_mapping_gist and the push/pull used
through MappingManager, all not under src/).  Modelled from the spec: the
discover/push/pull interface of the Remote Mirror Client, each call either
succeeding or failing. -/
structure RemoteOps where
  discover : Unit → Except Unit (Option String)
  push : JValue → Option String → Except Unit String
  pull : String → Except Unit JValue

/-- setup_mapping (src/script_magic/mapping_setup.py): construct the
manager, report success immediately when both files already exist,
otherwise run the discovery/bootstrap protocol.  `choice` stands for the
interactive input() answer and `now` for the sync timestamp.  Returns the
manager state paired with github_integration_success. -/
def setup_mapping (ops : RemoteOps) (choice : String) (now : String) (fs : MM) : MM × Bool :=
  let mm := mmInit fs
  if mm.file ≠ FileData.missing ∧ mm.gistFile.isSome then (mm, true)
  else
    match mm.gistFile with
    | some _ => (mm, false)
    | none =>
        match ops.discover () with
        | .error _ => (mm, false)
        | .ok (some gid) =>
            let mm1 := { mm with gistFile := some gid, gist_id := some gid }
            if mm1.file ≠ FileData.missing then
              if choice.toLower.trim = "y" ∨ choice.toLower.trim = "yes" then
                ((syncFromGithub ops.pull mm1).2, true)
              else
                ((sync_mapping ops.push now mm1).2, true)
            else ((syncFromGithub ops.pull mm1).2, true)
        | .ok none => ((sync_mapping ops.push now mm).2, true)

/-! ### extract_metadata_tags (src/script_magic/pydantic_ai_integration.py) -/

/-- The whitespace class of Python's re \s and str.strip on ASCII text. -/
def isPyWs (c : Char) : Bool :=
  c = ' ' || c = '\t' || c = '\n' || c = Char.ofNat 13 || c = Char.ofNat 12 || c = Char.ofNat 11

def dropWs (cs : List Char) : List Char := cs.dropWhile isPyWs

/-- Python str.strip(). -/
def pyStrip (cs : List Char) : List Char :=
  ((cs.dropWhile isPyWs).reverse.dropWhile isPyWs).reverse

/-- The lazy group of `#\s*tags\s*=\s*\[(.*?)\]` once the opening bracket
is consumed: the characters before the first ']', or none when the
bracket is never closed (the match attempt fails). -/
def takeUntilRB : List Char → Option (List Char)
  | [] => none
  | ']' :: _ => some []
  | c :: cs => (takeUntilRB cs).map (fun r => c :: r)

/-- One attempted match of the tags pattern at exactly this position
(backtracking cannot shift the \s* boundaries because 't', '=' and '['
are not whitespace). -/
def matchTagsAt (cs : List Char) : Option (List Char) :=
  match cs with
  | '#' :: r1 =>
      match dropWs r1 with
      | 't' :: 'a' :: 'g' :: 's' :: r3 =>
          match dropWs r3 with
          | '=' :: r5 =>
              match dropWs r5 with
              | '[' :: r7 => takeUntilRB r7
              | _ => none
          | _ => none
      | _ => none
  | _ => none

/-- re.search of the tags pattern with re.DOTALL: the leftmost matching
start position wins. -/
def findTagsBlock : List Char → Option (List Char)
  | [] => none
  | c :: cs =>
      match matchTagsAt (c :: cs) with
      | some content => some content
      | none => findTagsBlock cs

def isQuoteChar (c : Char) : Bool := c = Char.ofNat 34 || c = Char.ofNat 39

mutual

/-- re.findall of the pattern matching a quote, one or more non-quote
characters, and a quote (either kind on either side): scanning state
outside a candidate match. -/
def findQuoted : List Char → List (List Char)
  | [] => []
  | c :: cs => if isQuoteChar c then inQuoted cs [] else findQuoted cs

/-- Scanning state inside a candidate quoted tag: a quote after at least
one accumulated character closes the match and the scan resumes after it;
a quote with an empty accumulator restarts the candidate at this position
(the regex engine advances one position past the failed opener); end of
input discards the candidate. -/
def inQuoted : List Char → List Char → List (List Char)
  | [], _ => []
  | c :: cs, acc =>
      if isQuoteChar c then
        if acc = [] then inQuoted cs []
        else acc.reverse :: findQuoted cs
      else inQuoted cs (c :: acc)

end

/-- Python tags_str.split(','). -/
def splitComma : List Char → List (List Char)
  | [] => [[]]
  | c :: cs =>
      if c = ',' then [] :: splitComma cs
      else
        match splitComma cs with
        | p :: ps => (c :: p) :: ps
        | [] => [[c]]

def startsWithHash : List Char → Bool
  | '#' :: _ => true
  | _ => false

/-- The unquoted fallback loop: split on commas, strip each piece, keep
the non-empty ones not starting with '#'. -/
def commaTags (cs : List Char) : List (List Char) :=
  ((splitComma cs).map pyStrip).filter (fun p => !p.isEmpty && !startsWithHash p)

def defaultTags : List String := ["generated", "script-magic"]

/-- extract_metadata_tags: find the PEP 723 tags block, take the quoted
tags, fall back to comma-separated bare tags, and fall back to
["generated", "script-magic"] when nothing was extracted. -/
def extract_metadata_tags (script : String) : List String :=
  match findTagsBlock script.data with
  | none => defaultTags
  | some content =>
      let tags_str := pyStrip content
      let quoted := findQuoted tags_str
      let tags := if quoted = [] then (commaTags tags_str).map String.mk
                  else quoted.map String.mk
      if tags = [] then defaultTags else tags

/-! ### Helper lemmas for the manager claims -/

theorem json_loads_wf {s : String} {j : JValue} (h : json_loads s = some j) : JWFV j = true := by
  unfold json_loads at h
  cases hpv : parseValue (2 * s.length + 2) (skipWs s.data) with
  | none => rw [hpv] at h; simp at h
  | some p =>
      obtain ⟨v, rest⟩ := p
      rw [hpv] at h
      dsimp only [] at h
      split at h
      · rw [Option.some.injEq] at h
        subst h
        exact parseValue_wf _ _ _ _ hpv
      · simp at h

theorem readMappingE_wf {st : MM} {d : JValue} (h : readMappingE st = .ok d) : JWFV d = true := by
  unfold readMappingE at h
  cases hf : st.file with
  | missing =>
      rw [hf] at h
      rw [Except.ok.injEq] at h
      subst h
      decide
  | raw s =>
      rw [hf] at h
      rw [Except.ok.injEq] at h
      subst h
      cases hj : json_loads s with
      | none => decide
      | some j => simpa using json_loads_wf hj
  | ioErr => rw [hf] at h; simp at h

theorem read_write (j : JValue) (st : MM) (hw : JWFV j = true) :
    readMappingE (writeMappingF j st) = .ok j := by
  simp [readMappingE, writeMappingF, json_loads_jdump j hw]

theorem jLookup_mem : ∀ (ps : List (String × JValue)) (k : String) (v : JValue),
    jLookup ps k = some v → (k, v) ∈ ps
  | [], k, v, h => by simp [jLookup] at h
  | (k1, w) :: ps, k, v, h => by
      by_cases h1 : k1 = k
      · subst h1
        simp [jLookup] at h
        subst h
        exact List.mem_cons_self _ _
      · simp only [jLookup, if_neg h1] at h
        exact List.mem_cons_of_mem _ (jLookup_mem ps k v h)

theorem JWFV_lookup {dps : List (String × JValue)} {k : String} {v : JValue}
    (hw : JWFV (.obj dps) = true) (hl : jLookup dps k = some v) : JWFV v = true := by
  rw [JWFV, Bool.and_eq_true] at hw
  exact (JWFM_iff dps).mp hw.2 (k, v) (jLookup_mem dps k v hl)

theorem jLookup_none_forall : ∀ (ps : List (String × JValue)) (k : String),
    jLookup ps k = none → ∀ p ∈ ps, p.1 ≠ k
  | [], k, _ => by simp
  | (k1, w) :: ps, k, h => by
      by_cases h1 : k1 = k
      · subst h1
        simp [jLookup] at h
      · simp only [jLookup, if_neg h1] at h
        intro p hp
        rcases List.mem_cons.mp hp with rfl | hp2
        · exact h1
        · exact jLookup_none_forall ps k h p hp2

theorem jLookup_pyDictUpdate_of_not_mem : ∀ (upd base : List (String × JValue)) (k : String),
    (∀ p ∈ upd, p.1 ≠ k) → jLookup (pyDictUpdate base upd) k = jLookup base k
  | [], base, k, _ => rfl
  | (k1, v1) :: upd, base, k, h => by
      rw [pyDictUpdate_cons]
      rw [jLookup_pyDictUpdate_of_not_mem upd _ k (fun p hp => h p (List.mem_cons_of_mem _ hp))]
      exact jLookup_jInsert_ne base k1 v1 k (h (k1, v1) (List.mem_cons_self _ _))

theorem jLookup_pyDictUpdate_nodup : ∀ (d base : List (String × JValue)) (k : String) (v : JValue),
    nodupKeysB d = true → jLookup d k = some v → jLookup (pyDictUpdate base d) k = some v
  | [], _, k, v, _, hl => by simp [jLookup] at hl
  | (k1, w) :: d, base, k, v, hnd, hl => by
      rw [nodupKeysB_cons, Bool.and_eq_true] at hnd
      rw [pyDictUpdate_cons]
      by_cases h : k1 = k
      · subst h
        simp [jLookup] at hl
        subst hl
        rw [jLookup_pyDictUpdate_of_not_mem d _ k1 ?_]
        · exact jLookup_jInsert_self base k1 _
        · intro p hp
          have := (List.all_eq_true.mp hnd.1) p hp
          simpa using this
      · simp only [jLookup, if_neg h] at hl
        exact jLookup_pyDictUpdate_nodup d _ k v hnd.2 hl

theorem JWFV_obj_pyDictUpdate : ∀ (upd base : List (String × JValue)),
    JWFV (.obj base) = true → (∀ p ∈ upd, JWFV p.2 = true) →
    JWFV (.obj (pyDictUpdate base upd)) = true
  | [], base, hb, _ => hb
  | (k, v) :: upd, base, hb, hu => by
      rw [pyDictUpdate_cons]
      exact JWFV_obj_pyDictUpdate upd _
        (JWFV_obj_jInsert hb (hu (k, v) (List.mem_cons_self _ _)))
        (fun p hp => hu p (List.mem_cons_of_mem _ hp))

theorem read_saveGistId (gid : String) (st : MM) :
    readMappingE (saveGistId gid st) = readMappingE st := rfl

/-- On any state whose store reads as a dict, sync_mapping leaves the
"scripts" entry intact (whether the push succeeds or fails), only possibly
rewriting last_synced. -/
theorem sync_mapping_scripts (push : JValue → Option String → Except Unit String) (now : String)
    (st : MM) (dps : List (String × JValue))
    (hread : readMappingE st = .ok (.obj dps)) (hw : JWFV (.obj dps) = true) :
    ∃ dps2, readMappingE (sync_mapping push now st).2 = .ok (.obj dps2) ∧
      jLookup dps2 "scripts" = jLookup dps "scripts" ∧ JWFV (.obj dps2) = true := by
  unfold sync_mapping syncToGithub
  rw [hread]
  dsimp only []
  cases hp : push (.obj dps) st.gist_id with
  | error e => exact ⟨dps, hread, rfl, hw⟩
  | ok gid =>
      dsimp only []
      refine ⟨jInsert dps "last_synced" (.str now), ?_, ?_, ?_⟩
      · exact read_write _ _ (JWFV_obj_jInsert hw rfl)
      · exact jLookup_jInsert_ne dps "last_synced" (.str now) "scripts" (by decide)
      · exact JWFV_obj_jInsert hw rfl

/-- On a well-formed store, add_script succeeds and the resulting state
reads back as the store with the entry upserted (the opportunistic sync
only touching last_synced). -/
theorem add_script_ok (push : JValue → Option String → Except Unit String) (sync : Bool)
    (st : MM) (dps sps : List (String × JValue)) (name g now : String)
    (m : List (String × JValue))
    (hread : readMappingE st = .ok (.obj dps))
    (hs : jLookup dps "scripts" = some (.obj sps))
    (hm : ∀ p ∈ m, JWFV p.2 = true) :
    ∃ st1, add_script push name g m sync now st = .ok st1 ∧
      ∃ dps1, readMappingE st1 = .ok (.obj dps1) ∧
        jLookup dps1 "scripts" = some (.obj (jInsert sps name (.obj (scriptEntry g now m)))) ∧
        JWFV (.obj dps1) = true := by
  have hw := readMappingE_wf hread
  have hwsps : JWFV (.obj sps) = true := JWFV_lookup hw hs
  have hwent : JWFV (.obj (scriptEntry g now m)) = true :=
    JWFV_obj_pyDictUpdate m _ rfl hm
  have hwinner : JWFV (.obj (jInsert sps name (.obj (scriptEntry g now m)))) = true :=
    JWFV_obj_jInsert hwsps hwent
  have hwdata2 : JWFV (.obj (jInsert dps "scripts"
      (.obj (jInsert sps name (.obj (scriptEntry g now m)))))) = true :=
    JWFV_obj_jInsert hw hwinner
  unfold add_script
  rw [hread]
  dsimp only []
  rw [hs]
  dsimp only []
  cases hsy : sync with
  | false =>
      refine ⟨_, rfl, jInsert dps "scripts" (.obj (jInsert sps name (.obj (scriptEntry g now m)))),
        read_write _ _ hwdata2, jLookup_jInsert_self _ _ _, hwdata2⟩
  | true =>
      refine ⟨_, rfl, ?_⟩
      obtain ⟨dps2, h1, h2, h3⟩ := sync_mapping_scripts push now _ _ (read_write _ _ hwdata2) hwdata2
      exact ⟨dps2, h1, by rw [h2, jLookup_jInsert_self], h3⟩

theorem list_scripts_eq (st : MM) (dps sps : List (String × JValue))
    (hread : readMappingE st = .ok (.obj dps))
    (hs : jLookup dps "scripts" = some (.obj sps)) :
    list_scripts st = (listEntries sps).getD [] := by
  unfold list_scripts
  rw [hread]
  dsimp only []
  rw [hs]
  rfl

theorem listEntries_some : ∀ (sps : List (String × JValue)),
    (∀ p ∈ sps, ∃ d, p.2 = .obj d) → ∃ l, listEntries sps = some l
  | [], _ => ⟨[], rfl⟩
  | (k, v) :: sps, h => by
      obtain ⟨d, hd⟩ := h (k, v) (List.mem_cons_self _ _)
      simp only at hd
      subst hd
      obtain ⟨l, hl⟩ := listEntries_some sps (fun p hp => h p (List.mem_cons_of_mem _ hp))
      exact ⟨listedEntry k d :: l, by simp [listEntries, hl]⟩

theorem listEntries_mem_of : ∀ (sps : List (String × JValue)) (l : List JValue)
    (name : String) (d : List (String × JValue)),
    listEntries sps = some l → (name, .obj d) ∈ sps → listedEntry name d ∈ l
  | [], l, name, d, _, hm => by simp at hm
  | (k, v) :: sps, l, name, d, hle, hm => by
      cases v with
      | obj dd =>
          simp only [listEntries] at hle
          cases hle2 : listEntries sps with
          | none => rw [hle2] at hle; simp at hle
          | some l2 =>
              rw [hle2] at hle
              simp only [Option.map_some', Option.some.injEq] at hle
              subst hle
              rcases List.mem_cons.mp hm with heq | hm2
              · rw [Prod.mk.injEq, JValue.obj.injEq] at heq
                obtain ⟨rfl, rfl⟩ := heq
                exact List.mem_cons_self _ _
              · exact List.mem_cons_of_mem _ (listEntries_mem_of sps l2 name d hle2 hm2)
      | null => simp [listEntries] at hle
      | bool b => simp [listEntries] at hle
      | num n => simp [listEntries] at hle
      | str s => simp [listEntries] at hle
      | arr xs => simp [listEntries] at hle

/-- The predicate get_script_info scans with. -/
def nameMatches (name : String) (s : JValue) : Bool :=
  match s with
  | .obj ps => (jLookup ps "name").getD .null == .str name
  | _ => false

theorem get_script_info_eq_find (st : MM) (name : String) :
    get_script_info st name = (list_scripts st).find? (nameMatches name) := rfl

theorem nameMatches_listedEntry (k name : String) (d : List (String × JValue))
    (hd : jLookup d "name" = none) :
    nameMatches name (listedEntry k d) = (k == name) := by
  unfold nameMatches listedEntry
  dsimp only []
  rw [jLookup_pyDictUpdate_of_not_mem d _ "name" (jLookup_none_forall d "name" hd)]
  simp only [jLookup, eq_self_iff_true, ite_true, if_true, Option.getD_some]
  by_cases h : k = name
  · subst h
    simp
  · have h2 : (k == name) = false := by simp [h]
    have h3 : (JValue.str k == JValue.str name) = false := by simp [h]
    rw [h2, h3]

theorem find_listEntries : ∀ (sps : List (String × JValue)) (name : String),
    (∀ p ∈ sps, ∃ d, p.2 = .obj d ∧ jLookup d "name" = none) →
    ((listEntries sps).getD []).find? (nameMatches name)
      = (match jLookup sps name with
         | some (.obj d) => some (listedEntry name d)
         | _ => none)
  | [], name, _ => rfl
  | (k, v) :: sps, name, h => by
      obtain ⟨d, hd, hdn⟩ := h (k, v) (List.mem_cons_self _ _)
      simp only at hd
      subst hd
      obtain ⟨l, hl⟩ := listEntries_some sps
        (fun p hp => ⟨(h p (List.mem_cons_of_mem _ hp)).choose,
          (h p (List.mem_cons_of_mem _ hp)).choose_spec.1⟩)
      simp only [listEntries, hl, Option.map_some', Option.getD_some]
      by_cases hk : k = name
      · subst hk
        rw [List.find?_cons_of_pos _ (by rw [nameMatches_listedEntry _ _ _ hdn]; simp)]
        simp [jLookup]
      · rw [List.find?_cons_of_neg _ (by rw [nameMatches_listedEntry _ _ _ hdn]; simp [hk])]
        have := find_listEntries sps name (fun p hp => h p (List.mem_cons_of_mem _ hp))
        rw [hl] at this
        simp only [Option.getD_some] at this
        rw [this]
        simp only [jLookup, if_neg hk]

/-! ### The claims -/

/-- C2: for every manager state whose mapping file is missing, and for
every state whose mapping file holds content that does not parse as JSON,
_read_mapping returns the empty store {"scripts": {}, "last_synced": null}
and does not raise (readMappingE's error result models only the re-raised
other exceptions, e.g. permission errors, which the claim does not
cover). -/
theorem C2_read_missing_or_corrupt_defaults (st : MM) :
    (st.file = FileData.missing → readMappingE st = .ok emptyMapping) ∧
    (∀ s, st.file = FileData.raw s → json_loads s = none → readMappingE st = .ok emptyMapping) := by
  constructor
  · intro h
    simp [readMappingE, h]
  · intro s h hj
    simp [readMappingE, h, hj]

/-- Witness for C2: the missing file and the concrete non-JSON content
"not json" both read back as the empty store. -/
theorem C2_witness :
    readMappingE ⟨FileData.missing, none, none⟩ = .ok emptyMapping ∧
    readMappingE ⟨FileData.raw "not json", none, none⟩ = .ok emptyMapping :=
  ⟨(C2_read_missing_or_corrupt_defaults _).1 rfl,
   (C2_read_missing_or_corrupt_defaults _).2 "not json" rfl (by decide)⟩

/-- C4: writing any well-formed store document with _write_mapping and
reading it back with _read_mapping yields exactly the document written —
in particular stores with 0, 1 or N script records whose entries carry
arbitrary extra metadata fields, which therefore round-trip untouched.
JWFV (every object has pairwise-distinct keys, recursively) holds for
every value representable as a Python dict, hence for every store the
program can write. -/
theorem C4_write_read_roundtrip (j : JValue) (st : MM) (hw : JWFV j = true) :
    readMappingE (writeMappingF j st) = .ok j :=
  read_write j st hw

def c4Store : JValue := .obj [("scripts", .obj [
  ("alpha", .obj [("gist_id", .str "g1"), ("created_at", .str "t1"),
    ("description", .str "demo"), ("tags", .arr [.str "x", .str "y"]), ("extra", .num 7)]),
  ("beta", .obj [("gist_id", .str "g2"), ("created_at", .str "t2")])]),
  ("last_synced", .null)]

/-- Witness for C4 at a concrete two-record store with nested metadata. -/
theorem C4_witness :
    readMappingE (writeMappingF c4Store ⟨FileData.missing, none, none⟩) = .ok c4Store :=
  C4_write_read_roundtrip c4Store _ (by decide)

def c3NewStore : JValue := emptyMapping

def c3State : MM := ⟨FileData.raw "{}", none, none⟩

/-- Counterexample to C3 as stated: _write_mapping is modelled by
writeMappingStates (open "w" truncates, json.dump then streams the
serialization), and at the concrete old content "{}" and new store
{"scripts": {}, "last_synced": null} one of the intermediate on-disk
states (the truncated, empty file) is neither the complete old content
nor the complete new content. -/
theorem C3_counterexample :
    ¬ (∀ f ∈ writeMappingStates c3NewStore,
        f = c3State.file ∨ f = (writeMappingF c3NewStore c3State).file) := by
  decide

/-- C3 (amended): _write_mapping serializes the store deterministically,
but replaces the file by truncate-then-stream (open "w" + json.dump), not
by write-temp-then-rename: the intermediate on-disk states are exactly
the prefixes of the new serialized content, beginning with the empty file
and ending with the complete new content; serialized stores are never
empty, so whenever the old content is non-empty some intermediate state
differs from both the complete old and the complete new content — a crash
mid-write can leave a half-written file. -/
theorem C3_write_truncate_then_stream (j : JValue) (st : MM) :
    FileData.raw "" ∈ writeMappingStates j ∧
    FileData.raw (jdump j) ∈ writeMappingStates j ∧
    (writeMappingF j st).file = FileData.raw (jdump j) ∧
    jdump j ≠ "" ∧
    (∀ s, st.file = FileData.raw s → s ≠ "" →
      ∃ f ∈ writeMappingStates j, f ≠ st.file ∧ f ≠ (writeMappingF j st).file) := by
  have hne : jdump j ≠ "" := by
    obtain ⟨c, cs, hcs, -, -⟩ := serValue_head j 0
    intro h
    have h2 := congrArg String.data h
    rw [show (jdump j).data = serValue j 0 from rfl, hcs] at h2
    simp at h2
  have hmem0 : FileData.raw "" ∈ writeMappingStates j :=
    List.mem_map.mpr ⟨0, List.mem_range.mpr (by omega), rfl⟩
  refine ⟨hmem0, ?_, rfl, hne, ?_⟩
  · refine List.mem_map.mpr ⟨(serValue j 0).length, List.mem_range.mpr (by omega), ?_⟩
    rw [List.take_length]
    rfl
  · intro s hs hsne
    refine ⟨FileData.raw "", hmem0, ?_, ?_⟩
    · rw [hs]
      intro h
      rw [FileData.raw.injEq] at h
      exact hsne h.symm
    · intro h
      rw [show (writeMappingF j st).file = FileData.raw (jdump j) from rfl,
        FileData.raw.injEq] at h
      exact hne h.symm

/-- Witness for C3 (amended) at the concrete old content "{}". -/
theorem C3_witness :
    ∃ f ∈ writeMappingStates emptyMapping,
      f ≠ (⟨FileData.raw "{}", none, none⟩ : MM).file ∧
      f ≠ (writeMappingF emptyMapping ⟨FileData.raw "{}", none, none⟩).file :=
  (C3_write_truncate_then_stream emptyMapping _).2.2.2.2 "{}" rfl (by decide)

/-- C1: sync_mapping never raises; under a push that always fails it
returns false with the manager state — in particular the mapping file —
unmodified, and list_scripts/lookup_script then answer exactly as from
the local store alone; and whenever it returns true the store on disk has
its last_synced field set to the sync timestamp. -/
theorem C1_sync_degradation (st : MM) (now : String)
    (push : JValue → Option String → Except Unit String) :
    ((∀ d g, push d g = .error ()) →
      sync_mapping push now st = (false, st) ∧
      list_scripts (sync_mapping push now st).2 = list_scripts st ∧
      ∀ name, lookup_script (sync_mapping push now st).2 name = lookup_script st name) ∧
    (∀ st1, sync_mapping push now st = (true, st1) →
      ∃ dps, readMappingE st1 = .ok (.obj dps) ∧
        jLookup dps "last_synced" = some (.str now)) := by
  constructor
  · intro hp
    have hfail : sync_mapping push now st = (false, st) := by
      unfold sync_mapping syncToGithub
      cases hr : readMappingE st with
      | error e => rfl
      | ok data =>
          dsimp only []
          rw [hp data st.gist_id]
    exact ⟨hfail, by rw [hfail], fun name => by rw [hfail]⟩
  · intro st1 h
    unfold sync_mapping syncToGithub at h
    cases hr : readMappingE st with
    | error e => rw [hr] at h; simp at h
    | ok data =>
        rw [hr] at h
        dsimp only [] at h
        cases hp : push data st.gist_id with
        | error e => rw [hp] at h; simp at h
        | ok gid =>
            rw [hp] at h
            dsimp only [] at h
            cases data with
            | obj dps =>
                dsimp only [] at h
                rw [Prod.mk.injEq] at h
                obtain ⟨-, h2⟩ := h
                subst h2
                exact ⟨jInsert dps "last_synced" (.str now),
                  read_write _ _ (JWFV_obj_jInsert (readMappingE_wf hr) rfl),
                  jLookup_jInsert_self _ _ _⟩
            | null => simp at h
            | bool b => simp at h
            | num n => simp at h
            | str s => simp at h
            | arr xs => simp at h

/-- Witness for C1: an always-failing push on a fresh state returns false
and changes nothing; an always-succeeding push sets last_synced. -/
theorem C1_witness :
    sync_mapping (fun _ _ => .error ()) "T" ⟨FileData.missing, none, none⟩
      = (false, ⟨FileData.missing, none, none⟩) ∧
    ∃ dps, readMappingE
        ((sync_mapping (fun _ _ => .ok "gid") "T" ⟨FileData.missing, none, none⟩).2)
        = .ok (.obj dps) ∧ jLookup dps "last_synced" = some (.str "T") :=
  ⟨((C1_sync_degradation ⟨FileData.missing, none, none⟩ "T" (fun _ _ => .error ())).1
      (fun d g => rfl)).1,
   (C1_sync_degradation ⟨FileData.missing, none, none⟩ "T" (fun _ _ => .ok "gid")).2 _ (by rfl)⟩

/-- C7: when the mapping file and the gist-id file both already exist,
setup_mapping reports success with the freshly constructed manager, its
result does not depend on any remote operation, the interactive answer or
the clock (no network call is made), and the local store file is left
exactly as it was. -/
theorem C7_setup_trusts_local (fs : MM) (g : String)
    (hf : fs.file ≠ FileData.missing) (hg : fs.gistFile = some g) :
    (∀ ops choice now, setup_mapping ops choice now fs = (mmInit fs, true)) ∧
    (∀ ops1 ops2 choice1 choice2 now1 now2,
      setup_mapping ops1 choice1 now1 fs = setup_mapping ops2 choice2 now2 fs) ∧
    (mmInit fs).file = fs.file := by
  have hmm : (mmInit fs).file = fs.file ∧ (mmInit fs).gistFile = fs.gistFile := by
    unfold mmInit
    dsimp only []
    split
    · next heq => exact absurd heq hf
    · exact ⟨rfl, rfl⟩
  have hsetup : ∀ ops choice now, setup_mapping ops choice now fs = (mmInit fs, true) := by
    intro ops choice now
    unfold setup_mapping
    rw [if_pos ?_]
    constructor
    · rw [hmm.1]
      exact hf
    · rw [hmm.2, hg]
      rfl
  exact ⟨hsetup, fun o1 o2 c1 c2 n1 n2 => by rw [hsetup o1 c1 n1, hsetup o2 c2 n2], hmm.1⟩

def c7FailOps : RemoteOps :=
  ⟨fun _ => .error (), fun _ _ => .error (), fun _ => .error ()⟩

def c7OkOps : RemoteOps :=
  ⟨fun _ => .ok (some "found"), fun _ _ => .ok "pushed", fun _ => .ok emptyMapping⟩

/-- Witness for C7 at a concrete state with both files present, under two
remote behaviours that differ everywhere. -/
theorem C7_witness :
    setup_mapping c7FailOps "x" "t1" ⟨FileData.raw "{}", some "gid", none⟩
      = (mmInit ⟨FileData.raw "{}", some "gid", none⟩, true) ∧
    setup_mapping c7FailOps "x" "t1" ⟨FileData.raw "{}", some "gid", none⟩
      = setup_mapping c7OkOps "y" "t2" ⟨FileData.raw "{}", some "gid", none⟩ :=
  ⟨(C7_setup_trusts_local _ "gid" (by decide) rfl).1 c7FailOps "x" "t1",
   (C7_setup_trusts_local _ "gid" (by decide) rfl).2.1 c7FailOps c7OkOps "x" "y" "t1" "t2"⟩

/-- C10: extract_metadata_tags is total and never returns an empty list;
when the script has no tags block it returns exactly
["generated", "script-magic"], and when the block's stripped capture
yields neither a quoted tag nor a bare comma-separated tag it also
returns exactly that default. -/
theorem C10_extract_tags_total (s : String) :
    extract_metadata_tags s ≠ [] ∧
    (findTagsBlock s.data = none → extract_metadata_tags s = defaultTags) ∧
    (∀ content, findTagsBlock s.data = some content →
      findQuoted (pyStrip content) = [] → commaTags (pyStrip content) = [] →
      extract_metadata_tags s = defaultTags) := by
  unfold extract_metadata_tags
  cases hfb : findTagsBlock s.data with
  | none =>
      refine ⟨by decide, fun _ => rfl, ?_⟩
      intro content h
      simp at h
  | some content0 =>
      refine ⟨?_, ?_, ?_⟩
      · dsimp only []
        by_cases h : (if findQuoted (pyStrip content0) = []
            then (commaTags (pyStrip content0)).map String.mk
            else (findQuoted (pyStrip content0)).map String.mk) = []
        · rw [if_pos h]
          decide
        · rw [if_neg h]
          exact h
      · intro h
        simp at h
      · intro content h hq hc
        rw [Option.some.injEq] at h
        subst h
        simp [hq, hc]

/-- Witness for C10: a script without a tags block, and one whose block
is empty, both yield the default tags. -/
theorem C10_witness :
    extract_metadata_tags "hello" = defaultTags ∧
    extract_metadata_tags "# tags = []" = defaultTags :=
  ⟨(C10_extract_tags_total "hello").2.1 (by decide),
   (C10_extract_tags_total "# tags = []").2.2 [] (by decide) (by decide) (by decide)⟩

/-- C5: add_script upserts.  On a well-formed store it returns without
raising even when the name already exists, and after two calls with the
same name the store holds exactly one record under that name (the filter
over the scripts dict is the singleton), whose fields are the second
call's gist_id, the created_at stamp add_script itself sets from the
call-time clock (now2), and the second call's metadata. -/
theorem C5_add_script_upsert (push : JValue → Option String → Except Unit String) (sync : Bool)
    (st : MM) (dps sps : List (String × JValue)) (name g1 g2 now1 now2 : String)
    (m1 m2 : List (String × JValue))
    (hread : readMappingE st = .ok (.obj dps))
    (hs : jLookup dps "scripts" = some (.obj sps))
    (hm1 : ∀ p ∈ m1, JWFV p.2 = true) (hm2 : ∀ p ∈ m2, JWFV p.2 = true) :
    ∃ st1 st2 sps2,
      add_script push name g1 m1 sync now1 st = .ok st1 ∧
      add_script push name g2 m2 sync now2 st1 = .ok st2 ∧
      (∃ dps2, readMappingE st2 = .ok (.obj dps2) ∧
        jLookup dps2 "scripts" = some (.obj sps2)) ∧
      jLookup sps2 name = some (.obj (scriptEntry g2 now2 m2)) ∧
      sps2.filter (fun p => p.1 == name) = [(name, .obj (scriptEntry g2 now2 m2))] := by
  obtain ⟨st1, h1, dps1, hr1, hs1, hw1⟩ :=
    add_script_ok push sync st dps sps name g1 now1 m1 hread hs hm1
  obtain ⟨st2, h2, dps2, hr2, hs2, hw2⟩ :=
    add_script_ok push sync st1 dps1 _ name g2 now2 m2 hr1 hs1 hm2
  refine ⟨st1, st2, _, h1, h2, ⟨dps2, hr2, hs2⟩, jLookup_jInsert_self _ _ _, ?_⟩
  have hwsps : JWFV (.obj sps) = true := JWFV_lookup (readMappingE_wf hread) hs
  have hnd : nodupKeysB sps = true := by
    rw [JWFV, Bool.and_eq_true] at hwsps
    exact hwsps.1
  exact filter_of_jLookup _ name _
    (nodupKeysB_jInsert _ _ _ (nodupKeysB_jInsert _ _ _ hnd))
    (jLookup_jInsert_self _ _ _)

/-- Witness for C5 on the fresh empty store, with an always-failing push
(the opportunistic sync swallows the failure), empty metadata in the
first call and a description in the second. -/
theorem C5_witness :
    ∃ st1 st2 sps2,
      add_script (fun _ _ => .error ()) "a" "g1" [] true "t1"
        ⟨FileData.missing, none, none⟩ = .ok st1 ∧
      add_script (fun _ _ => .error ()) "a" "g2" [("description", .str "d")] true "t2" st1
        = .ok st2 ∧
      (∃ dps2, readMappingE st2 = .ok (.obj dps2) ∧
        jLookup dps2 "scripts" = some (.obj sps2)) ∧
      jLookup sps2 "a" = some (.obj (scriptEntry "g2" "t2" [("description", .str "d")])) ∧
      sps2.filter (fun p => p.1 == "a")
        = [("a", .obj (scriptEntry "g2" "t2" [("description", .str "d")]))] :=
  C5_add_script_upsert (fun _ _ => .error ()) true ⟨FileData.missing, none, none⟩
    [("scripts", .obj []), ("last_synced", .null)] [] "a" "g1" "g2" "t1" "t2"
    [] [("description", .str "d")] rfl rfl (by decide) (by decide)

/-- C6: remove_script on a well-formed store returns false and leaves the
state untouched when the name is not bound, and otherwise returns true
and persists the deletion: the resulting scripts dict is the old one with
the name erased and no longer binds it, list_scripts lists exactly the
remaining records, and — on records that do not carry their own "name"
field — the name no longer answers a listing-derived lookup. -/
theorem C6_remove_script (push : JValue → Option String → Except Unit String) (sync : Bool)
    (st : MM) (dps sps : List (String × JValue)) (name now : String)
    (hread : readMappingE st = .ok (.obj dps))
    (hs : jLookup dps "scripts" = some (.obj sps)) :
    (jLookup sps name = none → remove_script push name sync now st = .ok (false, st)) ∧
    (∀ e, jLookup sps name = some e →
      ∃ st1, remove_script push name sync now st = .ok (true, st1) ∧
        ∃ dps1, readMappingE st1 = .ok (.obj dps1) ∧
          jLookup dps1 "scripts" = some (.obj (jErase sps name)) ∧
          jLookup (jErase sps name) name = none ∧
          list_scripts st1 = (listEntries (jErase sps name)).getD [] ∧
          ((∀ p ∈ jErase sps name, ∃ d, p.2 = .obj d ∧ jLookup d "name" = none) →
            get_script_info st1 name = none)) := by
  have hw := readMappingE_wf hread
  have hwsps : JWFV (.obj sps) = true := JWFV_lookup hw hs
  have hnd : nodupKeysB sps = true := by
    rw [JWFV, Bool.and_eq_true] at hwsps
    exact hwsps.1
  have hwdata2 : JWFV (.obj (jInsert dps "scripts" (.obj (jErase sps name)))) = true :=
    JWFV_obj_jInsert hw (JWFV_obj_jErase hwsps)
  constructor
  · intro hn
    unfold remove_script
    rw [hread]
    dsimp only []
    rw [hs]
    simp only [Option.getD_some]
    rw [hn]
    rfl
  · intro e he
    have hpost : ∀ st1, readMappingE st1 = .ok (.obj (jInsert dps "scripts" (.obj (jErase sps name)))) →
        ∃ dps1, readMappingE st1 = .ok (.obj dps1) ∧
          jLookup dps1 "scripts" = some (.obj (jErase sps name)) ∧
          jLookup (jErase sps name) name = none ∧
          list_scripts st1 = (listEntries (jErase sps name)).getD [] ∧
          ((∀ p ∈ jErase sps name, ∃ d, p.2 = .obj d ∧ jLookup d "name" = none) →
            get_script_info st1 name = none) := by
      intro st1 hr1
      refine ⟨_, hr1, jLookup_jInsert_self _ _ _, jLookup_jErase_self sps name hnd,
        list_scripts_eq st1 _ _ hr1 (jLookup_jInsert_self _ _ _), ?_⟩
      intro hrec
      rw [get_script_info_eq_find, list_scripts_eq st1 _ _ hr1 (jLookup_jInsert_self _ _ _),
        find_listEntries _ name hrec, jLookup_jErase_self sps name hnd]
    have hsync : ∀ st0, readMappingE st0 = .ok (.obj (jInsert dps "scripts" (.obj (jErase sps name)))) →
        ∃ dps1, readMappingE (sync_mapping push now st0).2 = .ok (.obj dps1) ∧
          jLookup dps1 "scripts" = some (.obj (jErase sps name)) := by
      intro st0 hr0
      obtain ⟨dps1, h1, h2, h3⟩ := sync_mapping_scripts push now st0 _ hr0 hwdata2
      exact ⟨dps1, h1, by rw [h2, jLookup_jInsert_self]⟩
    unfold remove_script
    rw [hread]
    dsimp only []
    rw [hs]
    simp only [Option.getD_some]
    rw [he]
    simp only [Option.isSome_some, eq_self_iff_true, ite_true, if_true]
    cases hsy : sync with
    | false =>
        refine ⟨_, rfl, hpost _ (read_write _ _ hwdata2)⟩
    | true =>
        refine ⟨_, rfl, ?_⟩
        obtain ⟨dps1, h1, h2, h3⟩ :=
          sync_mapping_scripts push now _ _ (read_write _ _ hwdata2) hwdata2
        refine ⟨dps1, h1, ?_, jLookup_jErase_self sps name hnd,
          list_scripts_eq _ _ _ h1 (by rw [h2, jLookup_jInsert_self]), ?_⟩
        · rw [h2, jLookup_jInsert_self]
        · intro hrec
          rw [get_script_info_eq_find,
            list_scripts_eq _ _ _ h1 (by rw [h2, jLookup_jInsert_self]),
            find_listEntries _ name hrec, jLookup_jErase_self sps name hnd]

def c6Store : JValue := .obj [("scripts", .obj
  [("a", .obj [("gist_id", .str "g"), ("created_at", .str "t")])]), ("last_synced", .null)]

/-- Witness for C6 on a concrete one-record store: removing a missing
name is a no-op returning false; removing the present name returns true
with the record gone. -/
theorem C6_witness :
    remove_script (fun _ _ => .error ()) "zzz" true "T"
      (writeMappingF c6Store ⟨FileData.missing, none, none⟩)
      = .ok (false, writeMappingF c6Store ⟨FileData.missing, none, none⟩) ∧
    ∃ st1, remove_script (fun _ _ => .error ()) "a" true "T"
        (writeMappingF c6Store ⟨FileData.missing, none, none⟩) = .ok (true, st1) ∧
      ∃ dps1, readMappingE st1 = .ok (.obj dps1) ∧
        jLookup dps1 "scripts"
          = some (.obj (jErase [("a", .obj [("gist_id", .str "g"), ("created_at", .str "t")])] "a")) ∧
        jLookup (jErase [("a", .obj [("gist_id", .str "g"), ("created_at", .str "t")])] "a") "a"
          = none ∧
        list_scripts st1
          = (listEntries (jErase [("a", .obj [("gist_id", .str "g"), ("created_at", .str "t")])] "a")).getD [] ∧
        ((∀ p ∈ jErase [("a", .obj [("gist_id", .str "g"), ("created_at", .str "t")])] "a",
            ∃ d, p.2 = .obj d ∧ jLookup d "name" = none) →
          get_script_info st1 "a" = none) :=
  ⟨(C6_remove_script (fun _ _ => .error ()) true _
      [("scripts", .obj [("a", .obj [("gist_id", .str "g"), ("created_at", .str "t")])]),
        ("last_synced", .null)]
      [("a", .obj [("gist_id", .str "g"), ("created_at", .str "t")])] "zzz" "T"
      (read_write c6Store _ (by decide)) rfl).1 rfl,
   (C6_remove_script (fun _ _ => .error ()) true _
      [("scripts", .obj [("a", .obj [("gist_id", .str "g"), ("created_at", .str "t")])]),
        ("last_synced", .null)]
      [("a", .obj [("gist_id", .str "g"), ("created_at", .str "t")])] "a" "T"
      (read_write c6Store _ (by decide)) rfl).2
     (.obj [("gist_id", .str "g"), ("created_at", .str "t")]) rfl⟩

def c8Store : JValue := .obj [("scripts", .obj
  [("a", .obj [("gist_id", .str "g"), ("created_at", .str "t")])]), ("last_synced", .null)]

def c8State : MM := writeMappingF c8Store ⟨FileData.missing, none, none⟩

/-- Counterexample to C8 as stated: on the concrete store holding the one
record "a", lookup_script returns the stored record while get_script_info
returns a different value — the record with the extra leading "name"
field merged in by list_scripts. -/
theorem C8_counterexample :
    get_script_info c8State "a" ≠ lookup_script c8State "a" ∧
    lookup_script c8State "a" = some (.obj [("gist_id", .str "g"), ("created_at", .str "t")]) ∧
    get_script_info c8State "a"
      = some (.obj [("name", .str "a"), ("gist_id", .str "g"), ("created_at", .str "t")]) := by
  decide

/-- C8 (amended): get_script_info and lookup_script agree on presence —
on a well-formed store whose records are non-empty dicts without their
own "name" keys (as add_script builds from "name"-free metadata), both
are absent exactly when the name is unbound — and on the stored fields,
but get_script_info returns the record with an extra leading "name" field
rather than the same value. -/
theorem C8_get_script_info_vs_lookup (st : MM) (dps sps : List (String × JValue)) (name : String)
    (hread : readMappingE st = .ok (.obj dps))
    (hs : jLookup dps "scripts" = some (.obj sps))
    (hrec : ∀ p ∈ sps, ∃ d, p.2 = .obj d ∧ jLookup d "name" = none ∧ d ≠ []) :
    (get_script_info st name = none ↔ lookup_script st name = none) ∧
    (∀ d, jLookup sps name = some (.obj d) →
      lookup_script st name = some (.obj d) ∧
      get_script_info st name = some (.obj (("name", .str name) :: d))) := by
  have hw := readMappingE_wf hread
  have hwsps : JWFV (.obj sps) = true := JWFV_lookup hw hs
  have hfind : get_script_info st name
      = (match jLookup sps name with
         | some (.obj d) => some (listedEntry name d)
         | _ => none) := by
    rw [get_script_info_eq_find, list_scripts_eq st dps sps hread hs,
      find_listEntries sps name (fun p hp => ⟨(hrec p hp).choose, (hrec p hp).choose_spec.1,
        (hrec p hp).choose_spec.2.1⟩)]
  have hlook : lookup_script st name
      = (match jLookup sps name with
         | some sd => if jTruthy sd then some sd else none
         | none => none) := by
    unfold lookup_script
    rw [hread]
    dsimp only []
    rw [hs]
    simp only [Option.getD_some]
  have hentry : ∀ d, (name, JValue.obj d) ∈ sps →
      jLookup d "name" = none ∧ d ≠ [] ∧ nodupKeysB d = true := by
    intro d hm
    obtain ⟨d2, hd2, hn2, hne2⟩ := hrec (name, .obj d) hm
    simp only [JValue.obj.injEq] at hd2
    subst hd2
    rw [JWFV, Bool.and_eq_true] at hwsps
    have hwd : JWFV (.obj d) = true := (JWFM_iff sps).mp hwsps.2 (name, .obj d) hm
    rw [JWFV, Bool.and_eq_true] at hwd
    exact ⟨hn2, hne2, hwd.1⟩
  constructor
  · rw [hfind, hlook]
    cases hl : jLookup sps name with
    | none => simp
    | some v =>
        obtain ⟨d, hd, hn, hne⟩ := hrec (name, v) (jLookup_mem sps name v hl)
        simp only at hd
        subst hd
        have htr : jTruthy (.obj d) = true := by
          simp [jTruthy, hne]
        simp [htr]
  · intro d hl
    obtain ⟨hn, hne, hnd⟩ := hentry d (jLookup_mem sps name (.obj d) hl)
    constructor
    · rw [hlook, hl]
      have htr : jTruthy (.obj d) = true := by simp [jTruthy, hne]
      simp [htr]
    · rw [hfind, hl]
      unfold listedEntry
      dsimp only []
      rw [pyDictUpdate_disjoint d [("name", .str name)] hnd ?_]
      · rfl
      · intro p hp q hq
        simp only [List.mem_singleton] at hq
        rw [hq]
        exact jLookup_none_forall d "name" hn p hp

/-- Concrete instantiation of the amended C8 theorem at c8State. -/
theorem C8_witness :
    (get_script_info c8State "a" = none ↔ lookup_script c8State "a" = none) ∧
    lookup_script c8State "a" = some (.obj [("gist_id", .str "g"), ("created_at", .str "t")]) ∧
    get_script_info c8State "a"
      = some (.obj [("name", .str "a"), ("gist_id", .str "g"), ("created_at", .str "t")]) :=
  have h := C8_get_script_info_vs_lookup c8State
    [("scripts", .obj [("a", .obj [("gist_id", .str "g"), ("created_at", .str "t")])]),
     ("last_synced", .null)]
    [("a", .obj [("gist_id", .str "g"), ("created_at", .str "t")])] "a"
    (read_write c8Store ⟨FileData.missing, none, none⟩ (by decide)) (by decide)
    (by
      intro p hp
      simp only [List.mem_singleton] at hp
      subst hp
      exact ⟨[("gist_id", .str "g"), ("created_at", .str "t")], rfl, rfl, by decide⟩)
  have h2 := h.2 [("gist_id", .str "g"), ("created_at", .str "t")] rfl
  ⟨h.1, h2.1, h2.2⟩

/-- The record add_script stores for metadata \x7b"name": "b"\x7d:
\x7b"gist_id": gist_id, "created_at": now, **metadata\x7d. -/
def c9Rec : List (String × JValue) :=
  [("gist_id", .str "g"), ("created_at", .str "t"), ("name", .str "b")]

def c9Store : JValue := .obj [("scripts", .obj [("a", .obj c9Rec)]), ("last_synced", .null)]

def c9State : MM := writeMappingF c9Store ⟨FileData.missing, none, none⟩

set_option maxRecDepth 40000 in
/-- C9: list_scripts builds each entry as \x7b"name": key, **data\x7d, so a
"name" key inside the stored data overrides the registry key in the
listed entry; concretely, for the record stored under "a" whose data
carries ("name", "b") — exactly what add_script builds from such
metadata — the single listed entry has name "b", lookup_script still
finds the record under "a", and get_script_info does not. -/
theorem C9_metadata_name_override :
    (∀ (k : String) (d : List (String × JValue)) (v : JValue),
      nodupKeysB d = true → jLookup d "name" = some v →
      listedEntry k d = .obj (pyDictUpdate [("name", .str k)] d) ∧
      jLookup (pyDictUpdate [("name", .str k)] d) "name" = some v) ∧
    scriptEntry "g" "t" [("name", .str "b")] = c9Rec ∧
    list_scripts c9State
      = [.obj [("name", .str "b"), ("gist_id", .str "g"), ("created_at", .str "t")]] ∧
    lookup_script c9State "a" = some (.obj c9Rec) ∧
    get_script_info c9State "a" = none := by
  refine ⟨fun k d v hnd hl => ⟨rfl, jLookup_pyDictUpdate_nodup d _ "name" v hnd hl⟩, ?_, ?_, ?_, ?_⟩
  · decide
  · decide
  · decide
  · decide

/-- Concrete instantiation of the universally quantified part of C9. -/
theorem C9_witness :
    listedEntry "a" c9Rec = .obj (pyDictUpdate [("name", .str "a")] c9Rec) ∧
    jLookup (pyDictUpdate [("name", .str "a")] c9Rec) "name" = some (.str "b") :=
  C9_metadata_name_override.1 "a" c9Rec (.str "b") (by decide) (by decide)

end ScriptMagic
